import Mathlib

/-!
# Verification of the `json_parser` core pipeline

Shallow embedding of the three-stage pipeline of the `json_parser`
repository (character-level lexer, token-stream schema builder, and the
template-driven transformer), together with the case converter that the
transformer uses, and proofs settling the specification claims.

Rust strings are modelled as `List Char`.  Rust's byte-indexed string
operations (`String::insert`, slice indexing `s[a..=b]`,
`String::remove`, sub-slice search) are modelled byte-accurately: each
operation returns `Option`, `none` marking the panic cases of the source
(index out of range or not on a UTF-8 character boundary).  Functions
that can panic therefore return `Option`, and the panic propagates
through their callers.
-/

namespace JsonParser

/-- Rust `String` / `&str` contents, as the list of its characters. -/
abbrev Str := List Char

/-- Number of bytes of the UTF-8 encoding of a character
(Rust `char::len_utf8`). -/
def utf8Sz (c : Char) : Nat :=
  if c.toNat < 0x80 then 1
  else if c.toNat < 0x800 then 2
  else if c.toNat < 0x10000 then 3
  else 4

/-- Byte length of a string (Rust `str::len`). -/
def byteLen (s : Str) : Nat := (s.map utf8Sz).sum

/-- `c` is a one-byte (ASCII) character. -/
def isAsciiChar (c : Char) : Bool := c.toNat < 0x80

/-- The character occupying exactly the byte range `[i, i+1)` of `s`;
`none` models the panics of Rust `s[i..=i]` (out of range, `i` not a
character boundary, or `i+1` not a character boundary). -/
def byteSlice1 : Str → Nat → Option Char
  | [], _ => none
  | c :: rest, i =>
    if i = 0 then (if utf8Sz c = 1 then some c else none)
    else if utf8Sz c ≤ i then byteSlice1 rest (i - utf8Sz c)
    else none

/-- Apply `f` to the single-byte character at byte position `i`
(models `s[i..=i].make_ascii_uppercase()` / `..lowercase()`);
`none` models the panic cases of the slice indexing. -/
def mapByte1 (f : Char → Char) : Str → Nat → Option Str
  | [], _ => none
  | c :: rest, i =>
    if i = 0 then (if utf8Sz c = 1 then some (f c :: rest) else none)
    else if utf8Sz c ≤ i then (mapByte1 f rest (i - utf8Sz c)).map (c :: ·)
    else none

/-- Rust `char::make_ascii_uppercase` on a single character. -/
def asciiUpper (c : Char) : Char :=
  if 'a' ≤ c ∧ c ≤ 'z' then Char.ofNat (c.toNat - 32) else c

/-- Rust `char::make_ascii_lowercase` on a single character. -/
def asciiLower (c : Char) : Char :=
  if 'A' ≤ c ∧ c ≤ 'Z' then Char.ofNat (c.toNat + 32) else c

/-- Rust `String::insert(i, x)` with byte index `i`; `none` models the
panic when `i` is past the end or not a character boundary. -/
def insertAtByte : Str → Nat → Char → Option Str
  | s, 0, x => some (x :: s)
  | [], _ + 1, _ => none
  | c :: rest, i, x =>
    if utf8Sz c ≤ i then (insertAtByte rest (i - utf8Sz c) x).map (c :: ·)
    else none

/-- Rust `String::remove(i)` with byte index `i`; `none` models the
panic when `i` is out of range or not a character boundary. -/
def removeAtByte : Str → Nat → Option Str
  | [], _ => none
  | _ :: rest, 0 => some rest
  | c :: rest, i =>
    if utf8Sz c ≤ i then (removeAtByte rest (i - utf8Sz c)).map (c :: ·)
    else none

/-- Rust `&s[1..]`; `none` models the panic when the string is empty or
byte 1 is not a character boundary. -/
def byteTail1 : Str → Option Str
  | [] => none
  | c :: rest => if utf8Sz c = 1 then some rest else none

/-- Rust `str::find(char)`: byte offset of the first occurrence. -/
def findCharByte : Str → Char → Option Nat
  | [], _ => none
  | x :: rest, c =>
    if x = c then some 0 else (findCharByte rest c).map (utf8Sz x + ·)

/-- The three naming conventions (`CaseType` in
`src/lib/model/transform_config.rs`). -/
inductive CaseType where
  | SnakeCase
  | UpperCamelCase
  | CamelCase
deriving DecidableEq, Repr

/-- Loop body of `convert_case` (`src/lib/case.rs`): iterates over the
characters of the ORIGINAL string with their character index `i`, while
mutating `result`, whose indices are bytes.  `none` is a panic. -/
def convertLoop (ct : CaseType) : List Char → Nat → Str → Option Str
  | [], _, result => some result
  | c :: rest, i, result =>
    if 'A' ≤ c ∧ c ≤ 'Z' then
      match ct with
      | .SnakeCase =>
        if i ≠ 0 then do
          let r1 ← insertAtByte result i '_'
          let r2 ← mapByte1 asciiLower r1 (i + 1)
          convertLoop ct rest (i + 1) r2
        else do
          let r1 ← mapByte1 asciiLower result i
          convertLoop ct rest (i + 1) r1
      | _ => convertLoop ct rest (i + 1) result
    else if c = '_' ∨ c = '-' then
      match ct with
      | .SnakeCase =>
        -- `result = result.replace('-', "_"); return result;`
        some (result.map fun d => if d = '-' then '_' else d)
      | _ =>
        if i ≠ 0 then do
          let tl ← byteTail1 result
          match findCharByte tl c with
          | none => none   -- `.unwrap()` on a failed find panics
          | some idx => do
            let r1 ← removeAtByte result (idx + 1)
            let r2 ← mapByte1 asciiUpper r1 (idx + 1)
            convertLoop ct rest (i + 1) r2
        else convertLoop ct rest (i + 1) result
    else convertLoop ct rest (i + 1) result

/-- `convert_case` (`src/lib/case.rs`).  `none` models a panic. -/
def convert_case (s : Str) (ct : CaseType) : Option Str := do
  let result := s
  let result ← if ct = CaseType.UpperCamelCase then mapByte1 asciiUpper result 0
               else some result
  convertLoop ct s 0 result

/-! ## Token model (`src/lib/model/token.rs`) -/

/-- Primitive value kinds (`JsonType`). -/
inductive JsonType where
  | Int
  | Float
  | Bool
  | String
  | Null
deriving DecidableEq, Repr

/-- Lexical tokens (`JsonToken`). -/
inductive JsonToken where
  | ObjectStart
  | ObjectEnd
  | ArrayStart
  | ArrayEnd
  | Colon
  | Comma
  | Name (s : Str)
  | Value (t : JsonType)
deriving DecidableEq, Repr

/-- A position-tagged token (`Token`). -/
structure Token where
  line : Nat
  col : Nat
  value : JsonToken
deriving DecidableEq, Repr

/-! ## Schema tree model (`src/lib/model/tree.rs`) -/

mutual
/-- Schema tree node (`JsonTree`). -/
inductive JsonTree where
  | Int (name : Str)
  | Float (name : Str)
  | String (name : Str)
  | Bool (name : Str)
  | JsonObject (name : Str) (children : List JsonTree)
  | JsonArray (name : Str) (t : JsonArrayType)
  | Root (children : List JsonTree)
deriving Repr

/-- Array element shape (`JsonArrayType`). -/
inductive JsonArrayType where
  | Int
  | Float
  | String
  | Bool
  | JsonObject (children : List JsonTree)
  | JsonArray (t : JsonArrayType)
deriving Repr
end

mutual
/-- Structural equality test on schema trees: the derived Rust
`PartialEq` used by `Vec::contains` and `==` in the tokenizer. -/
def beqT : JsonTree → JsonTree → Bool
  | .Int a, .Int b => a = b
  | .Float a, .Float b => a = b
  | .String a, .String b => a = b
  | .Bool a, .Bool b => a = b
  | .JsonObject a xs, .JsonObject b ys => a = b && beqTL xs ys
  | .JsonArray a t, .JsonArray b u => a = b && beqA t u
  | .Root xs, .Root ys => beqTL xs ys
  | _, _ => false

def beqTL : List JsonTree → List JsonTree → Bool
  | [], [] => true
  | x :: xs, y :: ys => beqT x y && beqTL xs ys
  | _, _ => false

def beqA : JsonArrayType → JsonArrayType → Bool
  | .Int, .Int => true
  | .Float, .Float => true
  | .String, .String => true
  | .Bool, .Bool => true
  | .JsonObject xs, .JsonObject ys => beqTL xs ys
  | .JsonArray t, .JsonArray u => beqA t u
  | _, _ => false
end

mutual
/-- The Rust-derived `PartialEq` agrees with propositional equality. -/
def beqT_iff : ∀ x y : JsonTree, beqT x y = true ↔ x = y
  | .Int a, y => by
    cases y <;> simp [beqT]
  | .Float a, y => by
    cases y <;> simp [beqT]
  | .String a, y => by
    cases y <;> simp [beqT]
  | .Bool a, y => by
    cases y <;> simp [beqT]
  | .JsonObject a xs, y => by
    cases y <;> simp [beqT, beqTL_iff xs _]
  | .JsonArray a t, y => by
    cases y <;> simp [beqT, beqA_iff t _]
  | .Root xs, y => by
    cases y <;> simp [beqT, beqTL_iff xs _]

def beqTL_iff : ∀ xs ys : List JsonTree, beqTL xs ys = true ↔ xs = ys
  | [], ys => by cases ys <;> simp [beqTL]
  | x :: xs, ys => by
    cases ys with
    | nil => simp [beqTL]
    | cons y ys => simp [beqTL, beqT_iff x y, beqTL_iff xs ys]

def beqA_iff : ∀ x y : JsonArrayType, beqA x y = true ↔ x = y
  | .Int, y => by cases y <;> simp [beqA]
  | .Float, y => by cases y <;> simp [beqA]
  | .String, y => by cases y <;> simp [beqA]
  | .Bool, y => by cases y <;> simp [beqA]
  | .JsonObject xs, y => by cases y <;> simp [beqA, beqTL_iff xs _]
  | .JsonArray t, y => by cases y <;> simp [beqA, beqA_iff t _]
end

instance : DecidableEq JsonTree := fun x y =>
  decidable_of_iff _ (beqT_iff x y)

instance : DecidableEq JsonArrayType := fun x y =>
  decidable_of_iff _ (beqA_iff x y)

/-! ## Tokenizer / schema builder (`src/lib/parser/tokenizer.rs`) -/

/-- `TokenizerError`. -/
inductive TokenizerError where
  | SyntaxError (line col : Nat)
  | UnknownSyntaxError
  | NullNotSupportedError (line col : Nat)
  | EmptyArrayNotSupportedError (line col : Nat)
deriving DecidableEq, Repr

/-- The `for_each` fold of `Tokenizer::parse_new_array_type`: push each
child of the new object shape onto the old one unless an equal
(`PartialEq`) child is already present. -/
def mergeTrees (old new : List JsonTree) : List JsonTree :=
  new.foldl (fun acc jt => if acc.contains jt then acc else acc ++ [jt]) old

/-- `Tokenizer::parse_new_array_type`. -/
def parse_new_array_type (oldType : Option JsonArrayType)
    (newType : JsonArrayType) (line col : Nat) :
    Except TokenizerError JsonArrayType :=
  match oldType with
  | some old =>
    if old = newType then .ok newType
    else
      match old with
      | .JsonObject oldTree =>
        match newType with
        | .JsonObject newTree => .ok (.JsonObject (mergeTrees oldTree newTree))
        | _ => .error (.SyntaxError line col)
      | _ => .error (.SyntaxError line col)
  | none => .ok newType

mutual
/-- Loop of `Tokenizer::parse_array_token`, with the local mutable
`array_type` as a parameter and the remaining token stream threaded
through.  `fuel` only bounds the iteration count (each iteration of the
source loop consumes one token); `startTokenizer` supplies enough. -/
def parseArrayLoop : Nat → Str → Option JsonArrayType → List Token →
    Except TokenizerError (JsonTree × List Token)
  | _, name, arrayType, [] =>
    match arrayType with
    | some t => .ok (.JsonArray name t, [])
    | none => .error .UnknownSyntaxError
  | 0, _, _, _ :: _ => .error .UnknownSyntaxError
  | fuel + 1, name, arrayType, tok :: rest =>
    match tok.value with
    | .ArrayEnd =>
      match arrayType with
      | some t => .ok (.JsonArray name t, rest)
      | none => .error (.EmptyArrayNotSupportedError tok.line tok.col)
    | .ArrayStart =>
      match parseArrayLoop fuel [] none rest with
      | .error e => .error e
      | .ok (deeper, rest') =>
        match deeper with
        | .JsonArray _ deeperType =>
          match parse_new_array_type arrayType (.JsonArray deeperType)
              tok.line tok.col with
          | .error e => .error e
          | .ok t => parseArrayLoop fuel name (some t) rest'
        | _ => .error .UnknownSyntaxError
    | .ObjectStart =>
      match parseObjectLoop fuel [] none 0 rest with
      | .error e => .error e
      | .ok (object, rest') =>
        match parse_new_array_type arrayType (.JsonObject object)
            tok.line tok.col with
        | .error e => .error e
        | .ok t => parseArrayLoop fuel name (some t) rest'
    | .Value jt =>
      match jt with
      | .Null => .error (.NullNotSupportedError tok.line tok.col)
      | .Int =>
        match parse_new_array_type arrayType .Int tok.line tok.col with
        | .error e => .error e
        | .ok t => parseArrayLoop fuel name (some t) rest
      | .Float =>
        match parse_new_array_type arrayType .Float tok.line tok.col with
        | .error e => .error e
        | .ok t => parseArrayLoop fuel name (some t) rest
      | .Bool =>
        match parse_new_array_type arrayType .Bool tok.line tok.col with
        | .error e => .error e
        | .ok t => parseArrayLoop fuel name (some t) rest
      | .String =>
        match parse_new_array_type arrayType .String tok.line tok.col with
        | .error e => .error e
        | .ok t => parseArrayLoop fuel name (some t) rest
    | .Comma => parseArrayLoop fuel name arrayType rest
    | _ => .error (.SyntaxError tok.line tok.col)

/-- Loop of `Tokenizer::parse_object_token`, with the local mutable
state (`object`, `name`, `actual_count`) as parameters. -/
def parseObjectLoop : Nat → List JsonTree → Option Str → Nat → List Token →
    Except TokenizerError (List JsonTree × List Token)
  | _, object, _, _, [] => .ok (object, [])
  | 0, _, _, _, _ :: _ => .error .UnknownSyntaxError
  | fuel + 1, object, name, actualCount, tok :: rest =>
    match tok.value with
    | .ObjectStart =>
      if actualCount ≠ 0 then
        match name with
        | some n =>
          match parseObjectLoop fuel [] none 0 rest with
          | .error e => .error e
          | .ok (deeper, rest') =>
            parseObjectLoop fuel (object ++ [.JsonObject n deeper]) none
              (actualCount + 1) rest'
        | none => .error (.SyntaxError tok.line tok.col)
      else parseObjectLoop fuel object name (actualCount + 1) rest
    | .ObjectEnd => .ok (object, rest)
    | .ArrayStart =>
      match name with
      | some n =>
        match parseArrayLoop fuel n none rest with
        | .error e => .error e
        | .ok (array, rest') =>
          parseObjectLoop fuel (object ++ [array]) none (actualCount + 1) rest'
      | none => .error (.SyntaxError tok.line tok.col)
    | .ArrayEnd => parseObjectLoop fuel object name (actualCount + 1) rest
    | .Colon =>
      if name = none then .error (.SyntaxError tok.line tok.col)
      else parseObjectLoop fuel object name (actualCount + 1) rest
    | .Comma => parseObjectLoop fuel object name (actualCount + 1) rest
    | .Name fieldName =>
      if name.isSome then .error (.SyntaxError tok.line tok.col)
      else parseObjectLoop fuel object (some fieldName) (actualCount + 1) rest
    | .Value valueType =>
      match name with
      | some n =>
        match valueType with
        | .Int => parseObjectLoop fuel (object ++ [.Int n]) none
            (actualCount + 1) rest
        | .Float => parseObjectLoop fuel (object ++ [.Float n]) none
            (actualCount + 1) rest
        | .Bool => parseObjectLoop fuel (object ++ [.Bool n]) none
            (actualCount + 1) rest
        | .String => parseObjectLoop fuel (object ++ [.String n]) none
            (actualCount + 1) rest
        | .Null => .error (.NullNotSupportedError tok.line tok.col)
      | none => .error (.SyntaxError tok.line tok.col)
end

/-- `Tokenizer::start_tokenizer` (`src/lib/parser/tokenizer.rs`,
lines 194-196): a single call to `parse_object_token`, whose child list
is returned directly.  Each loop iteration of the source consumes one
token, so `length + 1` fuel is never exhausted. -/
def start_tokenizer (tokens : List Token) :
    Except TokenizerError (List JsonTree) :=
  (parseObjectLoop (tokens.length + 1) [] none 0 tokens).map Prod.fst

/-! ## Lexer (`src/lib/parser/lexer.rs`) -/

/-- `NextStep`: next step for the character lexer. -/
inductive NextStep where
  | LexNumberType
  | LexCharacter
  | LexName
  | LexString
  | LexBoolean
  | Done
deriving DecidableEq, Repr

/-- Rust `str::lines`: split at `\n`, drop an optional final line
ending, and strip a trailing `\r` from each line. -/
def rustLines (s : Str) : List Str :=
  let parts := (List.splitOn '\n' s).map fun l =>
    if l.getLast? = some '\r' then l.dropLast else l
  if parts.getLast? = some [] then parts.dropLast else parts

/-- State of `Lexer` while lexing: the remaining enumerated lines, the
current line index, the current line, the remaining enumerated
characters of the current line, and the tokens emitted so far. -/
structure LexState where
  lines : List (Nat × Str)
  currentLine : Nat
  currentLineStr : Option Str
  charIter : Option (List (Nat × Char))
  tokens : List Token
deriving Repr

/-- The character loop of `Lexer::lex_character`: emits structural
tokens and stops with the next step when a primitive-literal or quote
trigger is consumed.  Returns `none` as step when the line is
exhausted. -/
def lexCharLoop (ln : Nat) (toks : List Token) :
    List (Nat × Char) → Option NextStep × List Token × List (Nat × Char)
  | [] => (none, toks, [])
  | (i, c) :: rest =>
    if c = '{' then lexCharLoop ln (toks ++ [⟨ln, i, .ObjectStart⟩]) rest
    else if c = '}' then lexCharLoop ln (toks ++ [⟨ln, i, .ObjectEnd⟩]) rest
    else if c = '[' then lexCharLoop ln (toks ++ [⟨ln, i, .ArrayStart⟩]) rest
    else if c = ']' then lexCharLoop ln (toks ++ [⟨ln, i, .ArrayEnd⟩]) rest
    else if c = ':' then lexCharLoop ln (toks ++ [⟨ln, i, .Colon⟩]) rest
    else if c = ',' then lexCharLoop ln (toks ++ [⟨ln, i, .Comma⟩]) rest
    else if '0' ≤ c ∧ c ≤ '9' then (some .LexNumberType, toks, rest)
    else if c = 't' ∨ c = 'f' then (some .LexBoolean, toks, rest)
    else if c = '"' then
      match toks.getLast? with
      | some last =>
        if last.value = .Comma ∨ last.value = .ObjectStart then
          (some .LexName, toks, rest)
        else if last.value = .Colon then (some .LexString, toks, rest)
        else lexCharLoop ln toks rest
      | none => lexCharLoop ln toks rest
    else lexCharLoop ln toks rest

/-- `Lexer::lex_character`: run the character loop, else advance to the
next line, else report `Done`. -/
def lexCharacter (st : LexState) : NextStep × LexState :=
  let afterLoop : LexState × Option NextStep :=
    match st.charIter with
    | some it =>
      match lexCharLoop st.currentLine st.tokens it with
      | (step?, toks, rest) =>
        ({ st with tokens := toks, charIter := some rest }, step?)
    | none => (st, none)
  match afterLoop with
  | (st', some step) => (step, st')
  | (st', none) =>
    match st'.lines with
    | (i, line) :: ls =>
      (.LexCharacter,
        { st' with lines := ls, currentLineStr := some line,
                   charIter := some line.enum, currentLine := i })
    | [] => (.Done, st')

/-- Loop of `Lexer::lex_boolean` (via the generic `Lexer::lex`):
`token_start` is the first peeked index; stop (without consuming) at
`,` or `}`. -/
def lexBoolLoop : List (Nat × Char) → Option Nat →
    Option Nat × List (Nat × Char)
  | [], ts => (ts, [])
  | (i, c) :: rest, ts =>
    let ts := if ts = none then some i else ts
    if c = ',' ∨ c = '}' then (ts, (i, c) :: rest)
    else lexBoolLoop rest ts

/-- `Lexer::lex_boolean`: always classifies the literal as `Bool`. -/
def lexBoolean (st : LexState) : LexState :=
  match st.charIter with
  | none => st
  | some it =>
    match lexBoolLoop it none with
    | (ts, rest) =>
      let st := { st with charIter := some rest }
      match ts with
      | some tokenStart =>
        { st with tokens := st.tokens ++
            [⟨st.currentLine, tokenStart, .Value .Bool⟩] }
      | none => st

/-- Loop of `Lexer::lex_string`: `\` skips the following character,
an unescaped `"` stops (without consuming). -/
def lexStringLoop : List (Nat × Char) → Option Nat →
    Option Nat × List (Nat × Char)
  | [], ts => (ts, [])
  | (i, c) :: rest, ts =>
    let ts := if ts = none then some i else ts
    if c = '\\' then
      match rest with
      | [] => (ts, [])
      | _ :: rest2 => lexStringLoop rest2 ts
    else if c = '"' then (ts, (i, c) :: rest)
    else lexStringLoop rest ts

/-- `Lexer::lex_string`. -/
def lexString (st : LexState) : LexState :=
  match st.charIter with
  | none => st
  | some it =>
    match lexStringLoop it none with
    | (ts, rest) =>
      let st := { st with charIter := some rest }
      match ts with
      | some tokenStart =>
        { st with tokens := st.tokens ++
            [⟨st.currentLine, tokenStart, .Value .String⟩] }
      | none => st

/-- Loop of `Lexer::lex_number`: consume digits, record `Float` on a
`.`, stop (without consuming) at anything else. -/
def lexNumberLoop : List (Nat × Char) → Option Nat → Bool →
    Option Nat × Bool × List (Nat × Char)
  | [], ts, isF => (ts, isF, [])
  | (i, c) :: rest, ts, isF =>
    let ts := if ts = none then some i else ts
    if '0' ≤ c ∧ c ≤ '9' then lexNumberLoop rest ts isF
    else if c = '.' then lexNumberLoop rest ts true
    else (ts, isF, (i, c) :: rest)

/-- `Lexer::lex_number`. -/
def lexNumber (st : LexState) : LexState :=
  match st.charIter with
  | none => st
  | some it =>
    match lexNumberLoop it none false with
    | (ts, isFloat, rest) =>
      let st := { st with charIter := some rest }
      match ts with
      | some tokenStart =>
        { st with tokens := st.tokens ++
            [⟨st.currentLine, tokenStart,
              .Value (if isFloat then .Float else .Int)⟩] }
      | none => st

/-- Scan loop of `Lexer::lex_name`: record the first character and its
index, and break when the peeked next character is `"`, recording the
current character and index as the end.  When the peek fails the body
is skipped and the iterator runs dry. -/
def lexNameScan : List (Nat × Char) → Nat → Nat → Option Char →
    Nat × Nat × Option Char × Option Char × List (Nat × Char)
  | [], si, ei, sc => (si, ei, sc, none, [])
  | (i, c) :: rest, si, ei, sc =>
    match rest with
    | [] => (si, ei, sc, none, [])
    | (_, nc) :: _ =>
      let (sc', si') := if sc = none then (some c, i) else (sc, si)
      if nc = '"' then (si', i, sc', some c, rest)
      else lexNameScan rest si' ei sc'

/-- The index-adjustment loops of `Lexer::lex_name`: advance the byte
index until the one-byte slice at it equals the recorded character;
`none` models the slice-indexing panics. -/
def adjustIndex (line : Str) (c : Char) : Nat → Nat → Option Nat
  | 0, _ => none
  | fuel + 1, k =>
    match byteSlice1 line k with
    | none => none
    | some d => if d = c then some k else adjustIndex line c fuel (k + 1)

/-- Drop the first `n` bytes; `none` when `n` is past the end or not a
character boundary. -/
def dropBytes : Str → Nat → Option Str
  | s, 0 => some s
  | [], _ + 1 => none
  | c :: rest, n =>
    if utf8Sz c ≤ n then dropBytes rest (n - utf8Sz c) else none

/-- Take the first `n` bytes; `none` when `n` is past the end or not a
character boundary. -/
def takeBytes : Str → Nat → Option Str
  | _, 0 => some []
  | [], _ + 1 => none
  | c :: rest, n =>
    if utf8Sz c ≤ n then (takeBytes rest (n - utf8Sz c)).map (c :: ·)
    else none

/-- The byte slice `&line[a..=b]`, i.e. bytes `[a, b+1)`; `none` models
the slice-indexing panic cases. -/
def byteSliceIncl (line : Str) (a b : Nat) : Option Str :=
  if a ≤ b + 1 then do
    let t ← dropBytes line a
    takeBytes t (b + 1 - a)
  else none

/-- `Lexer::lex_name`; `none` models a panic in the index adjustment or
the final slice. -/
def lexName (st : LexState) : Option LexState :=
  let scanned :=
    match st.charIter with
    | some it => lexNameScan it 0 0 none
    | none => (0, 0, none, none, ([] : List (Nat × Char)))
  match scanned with
  | (si, ei, sc, ec, restIter) =>
    let st := match st.charIter with
      | some _ => { st with charIter := some restIter }
      | none => st
    match sc with
    | none => some st
    | some startChar =>
      match ec with
      | none => some st
      | some endChar =>
        match st.currentLineStr with
        | none => some st
        | some line => do
          let si' ← adjustIndex line startChar (byteLen line + 1) si
          let ei' ← adjustIndex line endChar (byteLen line + 1) ei
          let nameStr ← byteSliceIncl line si' ei'
          some { st with tokens := st.tokens ++
              [⟨st.currentLine, si', .Name nameStr⟩] }

/-- One dispatch round of `Lexer::start_lex`. -/
def lexRun : Nat → LexState → NextStep → Option (List Token)
  | _, st, .Done => some st.tokens
  | 0, _, _ => none
  | fuel + 1, st, .LexCharacter =>
    match lexCharacter st with
    | (step, st') => lexRun fuel st' step
  | fuel + 1, st, .LexNumberType => lexRun fuel (lexNumber st) .LexCharacter
  | fuel + 1, st, .LexName => do
    let st' ← lexName st
    lexRun fuel st' .LexCharacter
  | fuel + 1, st, .LexString => lexRun fuel (lexString st) .LexCharacter
  | fuel + 1, st, .LexBoolean => lexRun fuel (lexBoolean st) .LexCharacter

/-- `Lexer::new` followed by `Lexer::start_lex`.  Every dispatch round
consumes at least one character or one line, so the fuel below is never
exhausted; `none` therefore only reports a panic inside `lex_name`. -/
def start_lex (s : Str) : Option (List Token) :=
  let st0 : LexState := ⟨(rustLines s).enum, 0, none, none, []⟩
  match lexCharacter st0 with
  | (step, st1) => lexRun (4 * s.length + 8) st1 step

/-! ## Definition configuration (`src/lib/model/transform_config.rs`) -/

/-- `ConstructorField`; the Rust field `end` is called `endLine` here. -/
structure ConstructorField where
  field_definition : Str
  endLine : Str
deriving DecidableEq, Repr

/-- `ConstructorConfig`. -/
structure ConstructorConfig where
  definition : Str
  argument_definition : Str
  separator : Str
  separator_at_end : Bool
  field_definition : Option ConstructorField
deriving DecidableEq, Repr

/-- `TransformConfig`; the Rust field `name_change_annotation` is
called `nameChangeAnnot` here. -/
structure TransformConfig where
  type_definition : Str
  field_definition : Str
  nameChangeAnnot : Str
  array_definition : Str
  block_end : Str
  int_type : Str
  float_type : Str
  bool_type : Str
  string_type : Str
  constructor : Option ConstructorConfig
  case_type : CaseType
  object_case_type : CaseType
deriving DecidableEq, Repr

/-- The built-in Rust preset `RUST_DEFINITION`. -/
def RUST_DEFINITION : TransformConfig where
  type_definition := "#[derive(Serialize, Deserialize, Debug)]\nstruct \x7bobject_name\x7d \x7b".data
  field_definition := "\t\x7bfield_name\x7d: \x7bfield_type\x7d,".data
  nameChangeAnnot := "\t#[serde(rename = \"\x7bname\x7d\")]".data
  array_definition := "Vec<\x7bfield_type\x7d>".data
  block_end := "\x7d".data
  int_type := "i32".data
  float_type := "f32".data
  bool_type := "bool".data
  string_type := "String".data
  constructor := none
  case_type := .SnakeCase
  object_case_type := .UpperCamelCase

/-! ## Transformer (`src/lib/transformer.rs`) -/

/-- `TransformerError`. -/
inductive TransformerError where
  | BadTypeDefinition (s : Str)
  | BadFieldDefinitionName (s : Str)
  | BadFieldDefinitionType (s : Str)
  | BadFieldRenameDefinition (s : Str)
  | BadArrayTypeDefinition (s : Str)
  | BadConstructorDefinitionName (s : Str)
  | BadConstructorDefinitionArgument (s : Str)
  | BadArgumentDefinitionName (s : Str)
  | BadConstructorFieldDefinition (s : Str)
deriving DecidableEq, Repr

/-- `FieldInfo`. -/
structure FieldInfo where
  original_str : Str
  type_str : Str
  name : Str
deriving DecidableEq, Repr

/-- Iteration of Rust `str::replace` for the nonempty literal patterns
used by the transformer: replace every (leftmost, non-overlapping)
occurrence.  `fuel` only bounds the iteration count (every step consumes
at least one character), so `replaceStr` below never exhausts it. -/
def replaceStrA : Nat → Str → Str → Str → Str
  | 0, s, _, _ => s
  | _, [], _, _ => []
  | fuel + 1, c :: rest, pat, rep =>
    if pat ≠ [] ∧ pat.isPrefixOf (c :: rest) then
      rep ++ replaceStrA fuel ((c :: rest).drop pat.length) pat rep
    else c :: replaceStrA fuel rest pat rep

/-- Rust `str::replace`. -/
def replaceStr (s pat rep : Str) : Str :=
  replaceStrA (s.length + 1) s pat rep

/-- Rust `str::contains` (substring containment). -/
def containsStr (s pat : Str) : Bool :=
  s.tails.any fun t => pat.isPrefixOf t

/-- The `\x7bobject_name\x7d` placeholder. -/
def phObjectName : Str := "\x7bobject_name\x7d".data
/-- The `\x7bfield_name\x7d` placeholder. -/
def phFieldName : Str := "\x7bfield_name\x7d".data
/-- The `\x7bfield_type\x7d` placeholder. -/
def phFieldType : Str := "\x7bfield_type\x7d".data
/-- The `\x7bname\x7d` placeholder. -/
def phName : Str := "\x7bname\x7d".data
/-- The `\x7barguments\x7d` placeholder. -/
def phArguments : Str := "\x7barguments\x7d".data
/-- The `\x7btype\x7d` placeholder. -/
def phType : Str := "\x7btype\x7d".data

/-- `Transformer` (fields `name`, `config`, `tree`, `output`). -/
structure Transformer where
  name : Option Str
  config : TransformConfig
  tree : List JsonTree
  output : List (List Str)
deriving Repr

/-- `Transformer::new` (`src/lib/transformer.rs`, lines 62-117): eager
configuration validation.  NOTE (faithful to the source, line 77): the
name-change-annotation check returns `BadFieldRenameDefinition`
carrying `type_str`, not the annotation template itself. -/
def Transformer.new (config : TransformConfig) (tree : List JsonTree)
    (name : Option Str) : Except TransformerError Transformer :=
  let field_str := config.field_definition
  let field_rename_str := config.nameChangeAnnot
  let array_type_str := config.array_definition
  let type_str := config.type_definition
  if ¬ containsStr type_str phObjectName then
    .error (.BadTypeDefinition type_str)
  else if ¬ containsStr field_str phFieldName then
    .error (.BadFieldDefinitionName field_str)
  else if ¬ containsStr field_rename_str phName then
    .error (.BadFieldRenameDefinition type_str)
  else if ¬ containsStr field_str phFieldType then
    .error (.BadFieldDefinitionType field_str)
  else if ¬ containsStr array_type_str phFieldType then
    .error (.BadArrayTypeDefinition array_type_str)
  else
    match config.constructor with
    | some ctor =>
      if ¬ containsStr ctor.definition phObjectName then
        .error (.BadConstructorDefinitionName ctor.definition)
      else if ¬ containsStr ctor.definition phArguments then
        .error (.BadConstructorDefinitionArgument ctor.definition)
      else if ¬ containsStr ctor.argument_definition phName then
        .error (.BadArgumentDefinitionName ctor.argument_definition)
      else
        match ctor.field_definition with
        | some f =>
          if ¬ containsStr f.field_definition phName then
            .error (.BadConstructorFieldDefinition f.field_definition)
          else .ok ⟨name, config, tree, []⟩
        | none => .ok ⟨name, config, tree, []⟩
    | none => .ok ⟨name, config, tree, []⟩

/-- The `arguments_str` fold of `Transformer::transform_object`:
render `argument_definition` per field ({type} then {name}), the
separator trailing every argument except the last one, which gets it
only when `separator_at_end` is set. -/
def argumentsStr (ctor : ConstructorConfig) : List FieldInfo → Str
  | [] => []
  | [fi] =>
    let w := replaceStr
      (replaceStr ctor.argument_definition phType fi.type_str) phName fi.name
    if ctor.separator_at_end then w ++ ctor.separator else w
  | fi :: rest =>
    (replaceStr (replaceStr ctor.argument_definition phType fi.type_str)
      phName fi.name) ++ ctor.separator ++ argumentsStr ctor rest

/-- Steps 3-5 of `Transformer::transform_object`: the lines of the
current block, from the computed field descriptors. -/
def renderBlock (cfg : TransformConfig) (fields : List FieldInfo)
    (name : Str) : List Str :=
  let header := replaceStr cfg.type_definition phObjectName name
  let fieldLines := (fields.map fun fi =>
    (if fi.name ≠ fi.original_str then
      [replaceStr cfg.nameChangeAnnot phName fi.original_str]
     else [])
    ++ [replaceStr (replaceStr cfg.field_definition phFieldName fi.name)
          phFieldType fi.type_str]).flatten
  let ctorLines :=
    match cfg.constructor with
    | none => []
    | some ctor =>
      [replaceStr (replaceStr ctor.definition phObjectName name) phArguments
        (argumentsStr ctor fields)]
      ++ match ctor.field_definition with
         | none => []
         | some f =>
           (fields.map fun fi => replaceStr f.field_definition phName fi.name)
           ++ [f.endLine]
  [header] ++ fieldLines ++ ctorLines ++ [cfg.block_end]

mutual
/-- `Transformer::transform_object`, as the list of blocks this call
appends to `self.output` (nested blocks first, own block last).
`none` models a panic inside `convert_case`, or the missing `Root`
match arm of the source.  `fuel` only bounds the depth of the mutual
recursion; `start_transform` supplies enough for any tree. -/
def transformObject : Nat → TransformConfig → List JsonTree → Str →
    Option (List (List Str))
  | 0, _, _, _ => none
  | fuel + 1, cfg, tree, name =>
    match transformChildren fuel cfg tree with
    | none => none
    | some (nested, fields) => some (nested ++ [renderBlock cfg fields name])

/-- The `tree.iter().map(..).collect()` of `transform_object`: the
blocks pushed by nested renders, in order, and the field descriptors. -/
def transformChildren : Nat → TransformConfig →
    List JsonTree → Option (List (List Str) × List FieldInfo)
  | 0, _, _ => none
  | _ + 1, _, [] => some ([], [])
  | fuel + 1, cfg, t :: ts =>
    match transformChild fuel cfg t with
    | none => none
    | some (nb, fi) =>
      match transformChildren fuel cfg ts with
      | none => none
      | some (nbs, fis) => some (nb ++ nbs, fi :: fis)

/-- One arm of the field-descriptor `match` of `transform_object`.
The source `match` has no `Root` arm, modelled as `none`. -/
def transformChild : Nat → TransformConfig →
    JsonTree → Option (List (List Str) × FieldInfo)
  | 0, _, _ => none
  | _ + 1, cfg, .Int name =>
    (convert_case name cfg.case_type).map fun cs =>
      ([], ⟨name, cfg.int_type, cs⟩)
  | _ + 1, cfg, .Float name =>
    (convert_case name cfg.case_type).map fun cs =>
      ([], ⟨name, cfg.float_type, cs⟩)
  | _ + 1, cfg, .String name =>
    (convert_case name cfg.case_type).map fun cs =>
      ([], ⟨name, cfg.string_type, cs⟩)
  | _ + 1, cfg, .Bool name =>
    (convert_case name cfg.case_type).map fun cs =>
      ([], ⟨name, cfg.bool_type, cs⟩)
  | fuel + 1, cfg, .JsonObject name tree => do
    let caseStr ← convert_case name cfg.case_type
    let typeStr ← convert_case name cfg.object_case_type
    let nested ← transformObject fuel cfg tree typeStr
    some (nested, ⟨name, typeStr, caseStr⟩)
  | fuel + 1, cfg, .JsonArray name atype => do
    let caseStr ← convert_case name cfg.case_type
    let arrayStr := replaceStr cfg.array_definition phFieldType caseStr
    match atype with
    | .JsonObject tree => do
      let typeStr ← convert_case name cfg.object_case_type
      let nested ← transformObject fuel cfg tree typeStr
      some (nested,
        ⟨name, replaceStr cfg.array_definition phFieldType typeStr, caseStr⟩)
    | _ => some ([], ⟨name, arrayStr, caseStr⟩)
  | _ + 1, _, .Root _ => none
end

mutual
/-- Size of a schema node, used only to pick sufficient fuel. -/
def weightT : JsonTree → Nat
  | .Int _ => 1
  | .Float _ => 1
  | .String _ => 1
  | .Bool _ => 1
  | .JsonObject _ children => weightTL children + 1
  | .JsonArray _ t => weightA t + 1
  | .Root children => weightTL children + 1

def weightTL : List JsonTree → Nat
  | [] => 1
  | t :: ts => weightT t + weightTL ts

def weightA : JsonArrayType → Nat
  | .Int => 1
  | .Float => 1
  | .String => 1
  | .Bool => 1
  | .JsonObject children => weightTL children + 1
  | .JsonArray t => weightA t + 1
end

/-- `Transformer::start_transform`.  Along any chain of the mutual
recursion the lexicographic measure (tree weight, phase) decreases, so
`3 * weightTL tree + 3` fuel is never exhausted. -/
def start_transform (t : Transformer) : Option (List (List Str)) :=
  let name := t.name.getD "Root".data
  (transformObject (3 * weightTL t.tree + 3) t.config t.tree name).map
    fun out => t.output ++ out

/-! ## Auxiliary observations used by the claim statements -/

mutual
/-- Number of `Root` constructors anywhere in a tree. -/
def countRootT : JsonTree → Nat
  | .Int _ => 0
  | .Float _ => 0
  | .String _ => 0
  | .Bool _ => 0
  | .JsonObject _ children => countRootTL children
  | .JsonArray _ t => countRootA t
  | .Root children => countRootTL children + 1

def countRootTL : List JsonTree → Nat
  | [] => 0
  | t :: ts => countRootT t + countRootTL ts

def countRootA : JsonArrayType → Nat
  | .Int => 0
  | .Float => 0
  | .String => 0
  | .Bool => 0
  | .JsonObject children => countRootTL children
  | .JsonArray t => countRootA t
end

/-- The field name carried by a schema node (`Root` carries none). -/
def treeFieldName : JsonTree → Option Str
  | .Int n => some n
  | .Float n => some n
  | .String n => some n
  | .Bool n => some n
  | .JsonObject n _ => some n
  | .JsonArray n _ => some n
  | .Root _ => none

/-- Every character of `s` is ASCII (one byte). -/
def allAscii (s : Str) : Bool := s.all isAsciiChar

/-- `c` is an ASCII uppercase letter (the Rust `'A'..='Z'` pattern). -/
def isUpperAZ (c : Char) : Bool := 'A' ≤ c ∧ c ≤ 'Z'

/-- No character of `s` is an ASCII uppercase letter. -/
def noUpper (s : Str) : Bool := s.all fun c => ¬ isUpperAZ c

/-- No character of `s` is `_` or `-`. -/
def noSeparator (s : Str) : Bool := s.all fun c => c ≠ '_' ∧ c ≠ '-'

/-- Snake-case conversion as the specification words it (spec §4.2):
each uppercase letter not at position 0 is replaced by `_` followed by
its lowercase form, and an uppercase letter at position 0 is simply
lowercased.  Stated from the SPEC for comparison with `convert_case`. -/
def snakeSpec : Str → Str
  | [] => []
  | c :: rest =>
    (if isUpperAZ c then [asciiLower c] else [c])
    ++ rest.flatMap fun d =>
         if isUpperAZ d then ['_', asciiLower d] else [d]

/-! ## Claim theorems -/

/-! ### Lemmas about the object-shape merge -/

theorem mergeTrees_cons (old : List JsonTree) (x : JsonTree)
    (xs : List JsonTree) :
    mergeTrees old (x :: xs) =
      mergeTrees (if old.contains x then old else old ++ [x]) xs := rfl

theorem mergeTrees_nil (old : List JsonTree) : mergeTrees old [] = old := rfl

theorem contains_iff_mem (l : List JsonTree) (a : JsonTree) :
    l.contains a = true ↔ a ∈ l := by
  simp [List.contains]

theorem mergeTrees_starts_with_old (new old : List JsonTree) :
    old <+: mergeTrees old new := by
  induction new generalizing old with
  | nil => exact List.prefix_rfl
  | cons x xs ih =>
    rw [mergeTrees_cons]
    refine List.IsPrefix.trans ?_ (ih _)
    split
    · exact List.prefix_rfl
    · exact ⟨[x], rfl⟩

theorem mergeTrees_mem (new old : List JsonTree) (a : JsonTree)
    (h : a ∈ mergeTrees old new) : a ∈ old ∨ a ∈ new := by
  induction new generalizing old with
  | nil => exact Or.inl h
  | cons x xs ih =>
    rw [mergeTrees_cons] at h
    rcases ih _ h with h' | h'
    · by_cases hc : old.contains x = true
      · rw [if_pos hc] at h'
        exact Or.inl h'
      · rw [if_neg hc] at h'
        rcases List.mem_append.mp h' with h'' | h''
        · exact Or.inl h''
        · have hax := List.mem_singleton.mp h''
          exact Or.inr (by simp [hax])
    · exact Or.inr (List.mem_cons_of_mem _ h')

theorem mergeTrees_mem_new (new old : List JsonTree) (a : JsonTree)
    (h : a ∈ new) : a ∈ mergeTrees old new := by
  induction new generalizing old with
  | nil => cases h
  | cons x xs ih =>
    rw [mergeTrees_cons]
    rcases List.mem_cons.mp h with rfl | h'
    · have hx : a ∈ (if old.contains a then old else old ++ [a]) := by
        split
        · exact (contains_iff_mem _ _).mp (by assumption)
        · simp
      exact (mergeTrees_starts_with_old xs _).subset hx
    · exact ih _ h'

theorem mergeTrees_nodup (new old : List JsonTree) (h : old.Nodup) :
    (mergeTrees old new).Nodup := by
  induction new generalizing old with
  | nil => exact h
  | cons x xs ih =>
    rw [mergeTrees_cons]
    refine ih _ ?_
    by_cases hc : old.contains x = true
    · rwa [if_pos hc]
    · rw [if_neg hc]
      refine List.Nodup.append h (List.nodup_singleton x) ?_
      intro a ha hx
      rcases List.mem_singleton.mp hx with rfl
      exact hc ((contains_iff_mem _ _).mpr ha)

theorem mergeTrees_of_subset (new old : List JsonTree)
    (h : ∀ a ∈ new, a ∈ old) : mergeTrees old new = old := by
  induction new generalizing old with
  | nil => rfl
  | cons x xs ih =>
    rw [mergeTrees_cons,
      if_pos ((contains_iff_mem _ _).mpr (h x (List.mem_cons_self _ _)))]
    exact ih _ fun a ha => h a (List.mem_cons_of_mem _ ha)

/-- **C2** (corrected).  Unification of two Object shapes merges BY
WHOLE-CHILD STRUCTURAL EQUALITY, not by field name: a child of `new` is
appended exactly when no `PartialEq`-equal child is already present;
`old`'s children remain a prefix in order, every child of `new` appears
in the result, nothing else appears, and a duplicate-free `old` stays
duplicate-free — but two children that share a name while differing in
shape both survive (see the counterexample). -/
theorem c2_merge_by_structural_equality :
    (∀ old new l c,
      parse_new_array_type (some (.JsonObject old)) (.JsonObject new) l c =
        .ok (.JsonObject (mergeTrees old new)))
    ∧ (∀ old new, old <+: mergeTrees old new)
    ∧ (∀ old new a, a ∈ mergeTrees old new → a ∈ old ∨ a ∈ new)
    ∧ (∀ old new a, a ∈ new → a ∈ mergeTrees old new)
    ∧ (∀ old new, old.Nodup → (mergeTrees old new).Nodup) := by
  refine ⟨?_, fun old new => mergeTrees_starts_with_old new old,
    fun old new => mergeTrees_mem new old,
    fun old new a h => mergeTrees_mem_new new old a h,
    fun old new => mergeTrees_nodup new old⟩
  intro old new l c
  show (if (JsonArrayType.JsonObject old) = (.JsonObject new) then _ else _)
      = _
  by_cases h : old = new
  · subst h
    rw [if_pos rfl, mergeTrees_of_subset old old fun a ha => ha]
  · rw [if_neg (by simpa using h)]

/-- Witness for `c2_merge_by_structural_equality` at concrete shapes. -/
theorem c2_merge_witness :
    parse_new_array_type (some (.JsonObject [.Int "a".data]))
        (.JsonObject [.Float "b".data]) 0 0 =
      .ok (.JsonObject (mergeTrees [.Int "a".data] [.Float "b".data]))
    ∧ (mergeTrees [.Int "a".data] [.Float "b".data]).Nodup :=
  ⟨c2_merge_by_structural_equality.1 [.Int "a".data] [.Float "b".data] 0 0,
    c2_merge_by_structural_equality.2.2.2.2 [.Int "a".data]
      [.Float "b".data] (by decide)⟩

/-- **C1** (code bug).  The claim — following spec §4.1 and the
repository's own test `fail_on_null` — says the lexer enters
boolean/null-mode on the leading `n` of a `null` literal, classifies it
as a `Value Null` token, and schema building then fails with
`NullNotSupportedError`.  The code does neither: `lex_character`
matches only `'t' | 'f'`, so every character of `null` falls through to
the ignored-whitespace arm.  On `\x7b "f2": null \x7d` the lexer emits no
value token at all and lexing followed by schema-building SUCCEEDS,
returning an empty child list. -/
theorem c1_null_literal_silently_dropped :
    start_lex ("\x7b \"f2\": null \x7d".data) =
      some [⟨0, 0, .ObjectStart⟩, ⟨0, 3, .Name "f2".data⟩,
            ⟨0, 6, .Colon⟩, ⟨0, 13, .ObjectEnd⟩]
    ∧ ((start_lex ("\x7b \"f2\": null \x7d".data)).getD []).all
        (fun t => t.value != .Value .Null) = true
    ∧ start_tokenizer [⟨0, 0, .ObjectStart⟩, ⟨0, 3, .Name "f2".data⟩,
        ⟨0, 6, .Colon⟩, ⟨0, 13, .ObjectEnd⟩] = .ok [] :=
  ⟨by decide, by decide, rfl⟩

/-- **C2** counterexample.  The claim says unification merges object
shapes BY FIELD NAME, so the unified shape never contains two children
sharing a name.  The source compares whole children with `PartialEq`
(`old_tree.contains(&json_type)`), so `[Int "a"]` unified with
`[Bool "a"]` yields two children both named `"a"`. -/
theorem c2_counterexample_merge_by_name :
    parse_new_array_type (some (.JsonObject [.Int "a".data]))
        (.JsonObject [.Bool "a".data]) 3 7 =
      .ok (.JsonObject [.Int "a".data, .Bool "a".data])
    ∧ ¬ (([.Int "a".data, .Bool "a".data] : List JsonTree).map
          treeFieldName).Nodup :=
  ⟨rfl, by decide⟩

/-! ### Lemmas for the no-Root invariant of the schema builder -/

theorem countRootTL_append (a b : List JsonTree) :
    countRootTL (a ++ b) = countRootTL a + countRootTL b := by
  induction a with
  | nil => simp [countRootTL]
  | cons x xs ih => simp [countRootTL, ih]; omega

theorem countRootTL_zero_iff (l : List JsonTree) :
    countRootTL l = 0 ↔ ∀ a ∈ l, countRootT a = 0 := by
  induction l with
  | nil => simp [countRootTL]
  | cons x xs ih =>
    simp only [countRootTL, Nat.add_eq_zero_iff, ih, List.mem_cons]
    constructor
    · rintro ⟨h1, h2⟩ a (rfl | ha)
      · exact h1
      · exact h2 a ha
    · intro h
      exact ⟨h x (Or.inl rfl), fun a ha => h a (Or.inr ha)⟩

theorem mergeTrees_countRoot_zero (old new : List JsonTree)
    (h1 : countRootTL old = 0) (h2 : countRootTL new = 0) :
    countRootTL (mergeTrees old new) = 0 := by
  rw [countRootTL_zero_iff]
  intro a ha
  rcases mergeTrees_mem new old a ha with h | h
  · exact (countRootTL_zero_iff old).mp h1 a h
  · exact (countRootTL_zero_iff new).mp h2 a h

theorem parse_new_array_type_countRoot (oldType : Option JsonArrayType)
    (newType t : JsonArrayType) (l c : Nat)
    (h : parse_new_array_type oldType newType l c = .ok t)
    (hOld : ∀ t0, oldType = some t0 → countRootA t0 = 0)
    (hNew : countRootA newType = 0) : countRootA t = 0 := by
  cases oldType with
  | none =>
    simp only [parse_new_array_type] at h
    cases h
    exact hNew
  | some old =>
    simp only [parse_new_array_type] at h
    by_cases heq : old = newType
    · rw [if_pos heq] at h
      cases h
      exact hNew
    · rw [if_neg heq] at h
      cases old with
      | JsonObject oldTree =>
        cases newType with
        | Int => cases h
        | Float => cases h
        | String => cases h
        | Bool => cases h
        | JsonArray u => cases h
        | JsonObject newTree =>
          cases h
          have h1 : countRootTL oldTree = 0 := by
            simpa [countRootA] using hOld _ rfl
          have h2 : countRootTL newTree = 0 := by
            simpa [countRootA] using hNew
          simpa [countRootA] using
            mergeTrees_countRoot_zero oldTree newTree h1 h2
      | Int => cases h
      | Float => cases h
      | String => cases h
      | Bool => cases h
      | JsonArray u => cases h

/-- Neither parse loop ever constructs a `Root` node: a successful run
returns trees with as few `Root` constructors as were already in its
accumulator. -/
theorem parse_loops_no_root : ∀ fuel : Nat,
    (∀ object name actualCount ts res rest,
      parseObjectLoop fuel object name actualCount ts = .ok (res, rest) →
      countRootTL object = 0 → countRootTL res = 0)
    ∧ (∀ name arrayType ts jt rest,
      parseArrayLoop fuel name arrayType ts = .ok (jt, rest) →
      (∀ t0, arrayType = some t0 → countRootA t0 = 0) →
      countRootT jt = 0) := by
  intro fuel
  induction fuel with
  | zero =>
    constructor
    · intro object name actualCount ts res rest h h0
      cases ts with
      | nil => cases h; exact h0
      | cons tok rest' => cases h
    · intro name arrayType ts jt rest h hA
      cases ts with
      | nil =>
        cases arrayType with
        | none => cases h
        | some t0 =>
          cases h
          exact hA t0 rfl
      | cons tok rest' => cases h
  | succ fuel ih =>
    constructor
    · intro object name actualCount ts res rest h h0
      cases ts with
      | nil => cases h; exact h0
      | cons tok rest1 =>
        obtain ⟨l, c, v⟩ := tok
        cases v with
        | ObjectStart =>
          cases name with
          | none =>
            simp only [parseObjectLoop] at h
            by_cases hc : actualCount ≠ 0
            · rw [if_pos hc] at h
              cases h
            · rw [if_neg hc] at h
              exact ih.1 object none (actualCount + 1) rest1 res rest h h0
          | some n =>
            simp only [parseObjectLoop] at h
            by_cases hc : actualCount ≠ 0
            · rw [if_pos hc] at h
              cases hn : parseObjectLoop fuel [] none 0 rest1 with
              | error e => simp only [hn] at h; cases h
              | ok pr =>
                obtain ⟨deeper, rest'⟩ := pr
                simp only [hn] at h
                have hd : countRootTL deeper = 0 :=
                  ih.1 [] none 0 rest1 deeper rest' hn rfl
                refine ih.1 _ none (actualCount + 1) rest' res rest h ?_
                rw [countRootTL_append]
                simp [countRootT, countRootTL, h0, hd]
            · rw [if_neg hc] at h
              exact ih.1 object (some n) (actualCount + 1) rest1 res rest h h0
        | ObjectEnd =>
          simp only [parseObjectLoop] at h
          cases h
          exact h0
        | ArrayStart =>
          cases name with
          | none =>
            simp only [parseObjectLoop] at h
            cases h
          | some n =>
            simp only [parseObjectLoop] at h
            cases hn : parseArrayLoop fuel n none rest1 with
            | error e => simp only [hn] at h; cases h
            | ok pr =>
              obtain ⟨array, rest'⟩ := pr
              simp only [hn] at h
              have ha : countRootT array = 0 :=
                ih.2 n none rest1 array rest' hn (by intro t0 ht0; cases ht0)
              refine ih.1 _ none (actualCount + 1) rest' res rest h ?_
              rw [countRootTL_append]
              simp [countRootTL, h0, ha]
        | ArrayEnd =>
          simp only [parseObjectLoop] at h
          exact ih.1 object name (actualCount + 1) rest1 res rest h h0
        | Colon =>
          simp only [parseObjectLoop] at h
          split at h
          · cases h
          · exact ih.1 object name (actualCount + 1) rest1 res rest h h0
        | Comma =>
          simp only [parseObjectLoop] at h
          exact ih.1 object name (actualCount + 1) rest1 res rest h h0
        | Name fieldName =>
          simp only [parseObjectLoop] at h
          split at h
          · cases h
          · exact ih.1 object (some fieldName) (actualCount + 1) rest1 res
              rest h h0
        | Value valueType =>
          cases name with
          | none =>
            simp only [parseObjectLoop] at h
            cases valueType <;> cases h
          | some n =>
            cases valueType with
            | Int =>
              simp only [parseObjectLoop] at h
              refine ih.1 _ none (actualCount + 1) rest1 res rest h ?_
              rw [countRootTL_append]
              simp [countRootT, countRootTL, h0]
            | Float =>
              simp only [parseObjectLoop] at h
              refine ih.1 _ none (actualCount + 1) rest1 res rest h ?_
              rw [countRootTL_append]
              simp [countRootT, countRootTL, h0]
            | Bool =>
              simp only [parseObjectLoop] at h
              refine ih.1 _ none (actualCount + 1) rest1 res rest h ?_
              rw [countRootTL_append]
              simp [countRootT, countRootTL, h0]
            | String =>
              simp only [parseObjectLoop] at h
              refine ih.1 _ none (actualCount + 1) rest1 res rest h ?_
              rw [countRootTL_append]
              simp [countRootT, countRootTL, h0]
            | Null =>
              simp only [parseObjectLoop] at h
              cases h
    · intro name arrayType ts jt rest h hA
      cases ts with
      | nil =>
        cases arrayType with
        | none => cases h
        | some t0 =>
          cases h
          exact hA t0 rfl
      | cons tok rest1 =>
        obtain ⟨l, c, v⟩ := tok
        cases v with
        | ArrayEnd =>
          cases arrayType with
          | none =>
            simp only [parseArrayLoop] at h
            cases h
          | some t0 =>
            simp only [parseArrayLoop] at h
            cases h
            exact hA t0 rfl
        | ArrayStart =>
          simp only [parseArrayLoop] at h
          cases hn : parseArrayLoop fuel [] none rest1 with
          | error e => simp only [hn] at h; cases h
          | ok pr =>
            obtain ⟨deeper, rest'⟩ := pr
            simp only [hn] at h
            have hd : countRootT deeper = 0 :=
              ih.2 [] none rest1 deeper rest' hn (by intro t0 ht0; cases ht0)
            cases deeper with
            | JsonArray dn dt =>
              cases hp : parse_new_array_type arrayType (.JsonArray dt) l c with
              | error e => simp only [hp] at h; cases h
              | ok t =>
                simp only [hp] at h
                have ht : countRootA t = 0 :=
                  parse_new_array_type_countRoot arrayType (.JsonArray dt) t
                    l c hp hA (by simpa [countRootT, countRootA] using hd)
                exact ih.2 name (some t) rest' jt rest h
                  (by intro t0 ht0; cases ht0; exact ht)
            | Int => simp at h
            | Float => simp at h
            | String => simp at h
            | Bool => simp at h
            | JsonObject a b => simp at h
            | Root a => simp at h
        | ObjectStart =>
          simp only [parseArrayLoop] at h
          cases hn : parseObjectLoop fuel [] none 0 rest1 with
          | error e => simp only [hn] at h; cases h
          | ok pr =>
            obtain ⟨object, rest'⟩ := pr
            simp only [hn] at h
            have hd : countRootTL object = 0 :=
              ih.1 [] none 0 rest1 object rest' hn rfl
            cases hp : parse_new_array_type arrayType (.JsonObject object)
                l c with
            | error e => simp only [hp] at h; cases h
            | ok t =>
              simp only [hp] at h
              have ht : countRootA t = 0 :=
                parse_new_array_type_countRoot arrayType (.JsonObject object)
                  t l c hp hA (by simpa [countRootA] using hd)
              exact ih.2 name (some t) rest' jt rest h
                (by intro t0 ht0; cases ht0; exact ht)
        | Value jt0 =>
          cases jt0 with
          | Null =>
            simp only [parseArrayLoop] at h
            cases h
          | Int =>
            simp only [parseArrayLoop] at h
            cases hp : parse_new_array_type arrayType .Int l c with
            | error e => simp only [hp] at h; cases h
            | ok t =>
              simp only [hp] at h
              have ht : countRootA t = 0 :=
                parse_new_array_type_countRoot arrayType .Int t l c hp hA rfl
              exact ih.2 name (some t) rest1 jt rest h
                (by intro t0 ht0; cases ht0; exact ht)
          | Float =>
            simp only [parseArrayLoop] at h
            cases hp : parse_new_array_type arrayType .Float l c with
            | error e => simp only [hp] at h; cases h
            | ok t =>
              simp only [hp] at h
              have ht : countRootA t = 0 :=
                parse_new_array_type_countRoot arrayType .Float t l c hp hA rfl
              exact ih.2 name (some t) rest1 jt rest h
                (by intro t0 ht0; cases ht0; exact ht)
          | Bool =>
            simp only [parseArrayLoop] at h
            cases hp : parse_new_array_type arrayType .Bool l c with
            | error e => simp only [hp] at h; cases h
            | ok t =>
              simp only [hp] at h
              have ht : countRootA t = 0 :=
                parse_new_array_type_countRoot arrayType .Bool t l c hp hA rfl
              exact ih.2 name (some t) rest1 jt rest h
                (by intro t0 ht0; cases ht0; exact ht)
          | String =>
            simp only [parseArrayLoop] at h
            cases hp : parse_new_array_type arrayType .String l c with
            | error e => simp only [hp] at h; cases h
            | ok t =>
              simp only [hp] at h
              have ht : countRootA t = 0 :=
                parse_new_array_type_countRoot arrayType .String t l c hp hA
                  rfl
              exact ih.2 name (some t) rest1 jt rest h
                (by intro t0 ht0; cases ht0; exact ht)
        | Comma =>
          simp only [parseArrayLoop] at h
          exact ih.2 name arrayType rest1 jt rest h hA
        | ObjectEnd => simp only [parseArrayLoop] at h; cases h
        | Colon => simp only [parseArrayLoop] at h; cases h
        | Name s => simp only [parseArrayLoop] at h; cases h

/-- **C3** counterexample.  The claim says the top-level entry wraps the
parsed child list in a `Root` node, so every successful build yields
exactly one `Root` node.  `start_tokenizer` of the lib tokenizer
(`Ok(self.parse_object_token()?)`) returns the child list directly: on
the tokens of `\x7b"f1": 12\x7d` the successful build contains zero `Root`
nodes, not one. -/
theorem c3_counterexample_no_root_node :
    start_tokenizer [⟨0, 0, .ObjectStart⟩, ⟨0, 1, .Name "f1".data⟩,
        ⟨0, 5, .Colon⟩, ⟨0, 7, .Value .Int⟩, ⟨0, 9, .ObjectEnd⟩] =
      .ok [.Int "f1".data]
    ∧ countRootTL [.Int "f1".data] = 0 ∧ (0 : Nat) ≠ 1 :=
  ⟨rfl, rfl, by decide⟩

/-- **C3** (corrected).  The schema builder's top-level entry invokes
the parse-object loop exactly once on an empty accumulator and returns
the resulting child list DIRECTLY — it never wraps it in a `Root` node:
every successful build contains zero `Root` constructors.  The implicit
root exists only as the default name `"Root"` that the transformer
substitutes later. -/
theorem c3_build_returns_children_without_root :
    ∀ ts res, start_tokenizer ts = .ok res → countRootTL res = 0 := by
  intro ts res h
  unfold start_tokenizer at h
  cases hl : parseObjectLoop (ts.length + 1) [] none 0 ts with
  | error e => rw [hl] at h; cases h
  | ok pr =>
    obtain ⟨res', rest⟩ := pr
    rw [hl] at h
    cases h
    exact (parse_loops_no_root (ts.length + 1)).1 [] none 0 ts res' rest hl
      rfl

/-- Witness for `c3_build_returns_children_without_root` on the tokens
of `\x7b"x": true\x7d`. -/
theorem c3_no_root_witness :
    start_tokenizer [⟨0, 0, .ObjectStart⟩, ⟨0, 1, .Name "x".data⟩,
        ⟨0, 4, .Colon⟩, ⟨0, 6, .Value .Bool⟩, ⟨0, 10, .ObjectEnd⟩] =
      .ok [.Bool "x".data]
    ∧ countRootTL [.Bool "x".data] = 0 :=
  ⟨rfl, c3_build_returns_children_without_root
    [⟨0, 0, .ObjectStart⟩, ⟨0, 1, .Name "x".data⟩, ⟨0, 4, .Colon⟩,
      ⟨0, 6, .Value .Bool⟩, ⟨0, 10, .ObjectEnd⟩] [.Bool "x".data] (by rfl)⟩

/-! ### Lemmas for the transformer output order -/

theorem isInfix_append_left {α : Type} {l r : List α} (x : List α)
    (h : l <:+: r) : l <:+: x ++ r := by
  obtain ⟨s, u, rfl⟩ := h
  exact ⟨x ++ s, u, by simp⟩

/-- Whatever `transform_object`'s field-descriptor pass returns, the
blocks of every direct child object (and of every array-of-object
element) occur inside the nested-blocks part. -/
theorem transformChildren_spec : ∀ (l : List JsonTree) (fuel : Nat)
    (cfg : TransformConfig) nested fields,
    transformChildren fuel cfg l = some (nested, fields) →
    (∀ n t, JsonTree.JsonObject n t ∈ l →
      ∃ tn f cout, convert_case n cfg.object_case_type = some tn
        ∧ transformObject f cfg t tn = some cout ∧ cout <:+: nested)
    ∧ (∀ n t, JsonTree.JsonArray n (.JsonObject t) ∈ l →
      ∃ tn f cout, convert_case n cfg.object_case_type = some tn
        ∧ transformObject f cfg t tn = some cout ∧ cout <:+: nested) := by
  intro l
  induction l with
  | nil =>
    intro fuel cfg nested fields h
    constructor <;> (intro n t ht; cases ht)
  | cons x xs ih =>
    intro fuel cfg nested fields h
    cases fuel with
    | zero => cases h
    | succ fuel =>
      simp only [transformChildren] at h
      cases hx : transformChild fuel cfg x with
      | none => simp only [hx] at h; cases h
      | some pr1 =>
        obtain ⟨nb, fi⟩ := pr1
        simp only [hx] at h
        cases hxs : transformChildren fuel cfg xs with
        | none => simp only [hxs] at h; cases h
        | some pr2 =>
          obtain ⟨nbs, fis⟩ := pr2
          simp only [hxs] at h
          cases h
          have hrest := ih fuel cfg nbs fis hxs
          constructor
          · intro n t ht
            rcases List.mem_cons.mp ht with heq | hmem
            · subst heq
              cases fuel with
              | zero => cases hx
              | succ f =>
                simp only [transformChild] at hx
                cases hc1 : convert_case n cfg.case_type with
                | none => simp only [hc1, Option.bind_eq_bind, Option.none_bind] at hx; cases hx
                | some caseStr =>
                  simp only [hc1, Option.bind_eq_bind, Option.some_bind] at hx
                  cases hc2 : convert_case n cfg.object_case_type with
                  | none => simp only [hc2, Option.bind_eq_bind, Option.none_bind] at hx; cases hx
                  | some typeStr =>
                    simp only [hc2, Option.bind_eq_bind, Option.some_bind] at hx
                    cases ho : transformObject f cfg t typeStr with
                    | none => simp only [ho, Option.bind_eq_bind, Option.none_bind] at hx; cases hx
                    | some nestedx =>
                      simp only [ho, Option.bind_eq_bind, Option.some_bind] at hx
                      cases hx
                      exact ⟨typeStr, f, nb, rfl, ho,
                        (List.prefix_append nb nbs).isInfix⟩
            · obtain ⟨tn, f, cout, h1, h2, h3⟩ := hrest.1 n t hmem
              exact ⟨tn, f, cout, h1, h2, isInfix_append_left nb h3⟩
          · intro n t ht
            rcases List.mem_cons.mp ht with heq | hmem
            · subst heq
              cases fuel with
              | zero => cases hx
              | succ f =>
                simp only [transformChild] at hx
                cases hc1 : convert_case n cfg.case_type with
                | none => simp only [hc1, Option.bind_eq_bind, Option.none_bind] at hx; cases hx
                | some caseStr =>
                  simp only [hc1, Option.bind_eq_bind, Option.some_bind] at hx
                  cases hc2 : convert_case n cfg.object_case_type with
                  | none => simp only [hc2, Option.bind_eq_bind, Option.none_bind] at hx; cases hx
                  | some typeStr =>
                    simp only [hc2, Option.bind_eq_bind, Option.some_bind] at hx
                    cases ho : transformObject f cfg t typeStr with
                    | none => simp only [ho, Option.bind_eq_bind, Option.none_bind] at hx; cases hx
                    | some nestedx =>
                      simp only [ho, Option.bind_eq_bind, Option.some_bind] at hx
                      cases hx
                      exact ⟨typeStr, f, nb, rfl, ho,
                        (List.prefix_append nb nbs).isInfix⟩
            · obtain ⟨tn, f, cout, h1, h2, h3⟩ := hrest.2 n t hmem
              exact ⟨tn, f, cout, h1, h2, isInfix_append_left nb h3⟩

/-- **C4** (confirmed).  Whenever a transform run returns an output
list, that list is the nested blocks followed by the current object's
own block: the block of each direct child object — and of each
array-of-object element type — lies strictly before the containing
block, at every level of the recursion, and for a freshly constructed
transformer the root object's block is the last element of the whole
output. -/
theorem c4_nested_blocks_before_container :
    (∀ fuel cfg tree name out,
      transformObject fuel cfg tree name = some out →
      ∃ f' nested fields,
        transformChildren f' cfg tree = some (nested, fields)
        ∧ out = nested ++ [renderBlock cfg fields name]
        ∧ out.getLast? = some (renderBlock cfg fields name)
        ∧ (∀ n t, JsonTree.JsonObject n t ∈ tree →
            ∃ tn f cout, convert_case n cfg.object_case_type = some tn
              ∧ transformObject f cfg t tn = some cout ∧ cout <:+: nested)
        ∧ (∀ n t, JsonTree.JsonArray n (.JsonObject t) ∈ tree →
            ∃ tn f cout, convert_case n cfg.object_case_type = some tn
              ∧ transformObject f cfg t tn = some cout ∧ cout <:+: nested))
    ∧ (∀ tr out, start_transform tr = some out → tr.output = [] →
        ∃ nested fields,
          out = nested ++
            [renderBlock tr.config fields (tr.name.getD "Root".data)]) := by
  have main : ∀ fuel cfg tree name out,
      transformObject fuel cfg tree name = some out →
      ∃ f' nested fields,
        transformChildren f' cfg tree = some (nested, fields)
        ∧ out = nested ++ [renderBlock cfg fields name]
        ∧ out.getLast? = some (renderBlock cfg fields name)
        ∧ (∀ n t, JsonTree.JsonObject n t ∈ tree →
            ∃ tn f cout, convert_case n cfg.object_case_type = some tn
              ∧ transformObject f cfg t tn = some cout ∧ cout <:+: nested)
        ∧ (∀ n t, JsonTree.JsonArray n (.JsonObject t) ∈ tree →
            ∃ tn f cout, convert_case n cfg.object_case_type = some tn
              ∧ transformObject f cfg t tn = some cout ∧ cout <:+: nested) := by
    intro fuel cfg tree name out h
    cases fuel with
    | zero => cases h
    | succ fuel =>
      simp only [transformObject] at h
      cases hc : transformChildren fuel cfg tree with
      | none => simp only [hc] at h; cases h
      | some pr =>
        obtain ⟨nested, fields⟩ := pr
        simp only [hc] at h
        cases h
        have hspec := transformChildren_spec tree fuel cfg nested fields hc
        exact ⟨fuel, nested, fields, hc, rfl, by simp, hspec.1, hspec.2⟩
  refine ⟨main, ?_⟩
  intro tr out h hout
  simp only [start_transform] at h
  cases ho : transformObject (3 * weightTL tr.tree + 3) tr.config tr.tree
      (tr.name.getD "Root".data) with
  | none => rw [ho] at h; exact Option.noConfusion h
  | some out' =>
    simp only [ho, Option.map_some'] at h
    cases h
    obtain ⟨f', nested, fields, _, heq, _, _, _⟩ :=
      main _ tr.config tr.tree (tr.name.getD "Root".data) out' ho
    exact ⟨nested, fields, by rw [hout, heq]; simp⟩

/-- Witness for `c4_nested_blocks_before_container` on the tree of
`\x7b"f4": \x7b"f5": true\x7d\x7d` with the Rust preset. -/
theorem c4_order_witness :
    ∃ nested fields,
      ([["#[derive(Serialize, Deserialize, Debug)]\nstruct F4 \x7b".data,
         "\tf5: bool,".data, "\x7d".data],
        ["#[derive(Serialize, Deserialize, Debug)]\nstruct Root \x7b".data,
         "\tf4: F4,".data, "\x7d".data]] : List (List Str)) =
        nested ++ [renderBlock RUST_DEFINITION fields "Root".data] :=
  c4_nested_blocks_before_container.2
    ⟨none, RUST_DEFINITION, [.JsonObject "f4".data [.Bool "f5".data]], []⟩
    _ (by rfl) rfl

/-- **C5** counterexample.  The claim says that for an Array child with
a scalar element shape the text substituted for `\x7bfield_type\x7d`
identifies the scalar element's type.  The source substitutes the
case-converted FIELD name: under the Rust preset, `"f1": [5, ...]`
renders as `Vec<f1>`, not as the `i32` substitution. -/
theorem c5_counterexample_scalar_array_field_type :
    transformChild 1 RUST_DEFINITION (.JsonArray "f1".data .Int) =
      some ([], ⟨"f1".data, "Vec<f1>".data, "f1".data⟩)
    ∧ replaceStr RUST_DEFINITION.array_definition phFieldType
        RUST_DEFINITION.int_type = "Vec<i32>".data
    ∧ "Vec<f1>".data ≠ "Vec<i32>".data :=
  ⟨rfl, by decide, by decide⟩

/-- **C5** (corrected).  For an Array child the transformer renders the
field type as `array_definition` with `\x7bfield_type\x7d` substituted by a
case conversion OF THE FIELD'S NAME: when the element shape is an
Object the element object is rendered recursively first and the
substituted text is the field name converted with `object_case_type`;
for every other element shape (scalars and arrays) the substituted text
is the field name converted with `case_type` — never a text identifying
the scalar element's type. -/
theorem c5_array_field_type_is_cased_name :
    (∀ fuel (cfg : TransformConfig) name atype cs,
      (∀ ts, atype ≠ JsonArrayType.JsonObject ts) →
      convert_case name cfg.case_type = some cs →
      transformChild (fuel + 1) cfg (.JsonArray name atype) =
        some ([], ⟨name, replaceStr cfg.array_definition phFieldType cs,
          cs⟩))
    ∧ (∀ fuel (cfg : TransformConfig) name t cs tn,
      convert_case name cfg.case_type = some cs →
      convert_case name cfg.object_case_type = some tn →
      transformChild (fuel + 1) cfg (.JsonArray name (.JsonObject t)) =
        (transformObject fuel cfg t tn).map fun nested =>
          (nested,
            ⟨name, replaceStr cfg.array_definition phFieldType tn, cs⟩)) := by
  constructor
  · intro fuel cfg name atype cs hno hcs
    cases atype with
    | JsonObject ts => exact absurd rfl (hno ts)
    | Int =>
      simp [transformChild, hcs, Option.bind_eq_bind, Option.some_bind]
    | Float =>
      simp [transformChild, hcs, Option.bind_eq_bind, Option.some_bind]
    | String =>
      simp [transformChild, hcs, Option.bind_eq_bind, Option.some_bind]
    | Bool =>
      simp [transformChild, hcs, Option.bind_eq_bind, Option.some_bind]
    | JsonArray u =>
      simp [transformChild, hcs, Option.bind_eq_bind, Option.some_bind]
  · intro fuel cfg name t cs tn hcs htn
    simp only [transformChild, hcs, htn, Option.bind_eq_bind,
      Option.some_bind]
    cases ho : transformObject fuel cfg t tn <;>
      simp [ho, Option.bind_eq_bind]

/-- Witness for `c5_array_field_type_is_cased_name` at a Bool-element
array under the Rust preset. -/
theorem c5_substitution_witness :
    transformChild 1 RUST_DEFINITION (.JsonArray "f2".data .Bool) =
      some ([], ⟨"f2".data,
        replaceStr RUST_DEFINITION.array_definition phFieldType "f2".data,
        "f2".data⟩) :=
  c5_array_field_type_is_cased_name.1 0 RUST_DEFINITION "f2".data .Bool
    "f2".data (fun ts h => JsonArrayType.noConfusion h) (by decide)

/-! ### Lemmas about the case converter -/

theorem char_toNat_ofNat (n : Nat) (hv : n.isValidChar) :
    (Char.ofNat n).toNat = n := by
  have hlt : n < 2 ^ 32 := by
    rcases hv with h | ⟨h1, h2⟩ <;> omega
  simp [Char.ofNat, hv, Char.ofNatAux, Char.toNat, UInt32.toNat,
    Nat.mod_eq_of_lt hlt]

theorem char_le_toNat {c d : Char} (h : c ≤ d) : c.toNat ≤ d.toNat := by
  rw [Char.le_def] at h
  have : c.val.toNat ≤ d.val.toNat := h
  simpa [Char.toNat] using this

theorem utf8Sz_of_ascii {c : Char} (h : isAsciiChar c = true) :
    utf8Sz c = 1 := by
  simp only [isAsciiChar, decide_eq_true_eq] at h
  simp [utf8Sz, h]

theorem upperAZ_ascii {c : Char} (h : 'A' ≤ c ∧ c ≤ 'Z') :
    isAsciiChar c = true := by
  have h2 : c.toNat ≤ 90 := by simpa using char_le_toNat h.2
  simp only [isAsciiChar, decide_eq_true_eq]
  omega

theorem asciiLower_ascii {c : Char} (h : isAsciiChar c = true) :
    isAsciiChar (asciiLower c) = true := by
  unfold asciiLower
  split
  · rename_i hup
    have h1 : 65 ≤ c.toNat := by simpa using char_le_toNat hup.1
    have h2 : c.toNat ≤ 90 := by simpa using char_le_toNat hup.2
    have hv : (c.toNat + 32).isValidChar := Or.inl (by omega)
    simp only [isAsciiChar, decide_eq_true_eq, char_toNat_ofNat _ hv]
    omega
  · exact h

theorem asciiUpper_ascii {c : Char} (h : isAsciiChar c = true) :
    isAsciiChar (asciiUpper c) = true := by
  unfold asciiUpper
  split
  · rename_i hup
    have h1 : 97 ≤ c.toNat := by simpa using char_le_toNat hup.1
    have h2 : c.toNat ≤ 122 := by simpa using char_le_toNat hup.2
    have hv : (c.toNat - 32).isValidChar := Or.inl (by omega)
    simp only [isAsciiChar, decide_eq_true_eq, char_toNat_ofNat _ hv]
    simp only [isAsciiChar, decide_eq_true_eq] at h
    omega
  · exact h

theorem insertAtByte_ascii : ∀ (pre post : Str) (x : Char),
    allAscii pre = true →
    insertAtByte (pre ++ post) pre.length x = some (pre ++ x :: post) := by
  intro pre
  induction pre with
  | nil => intro post x _; simp [insertAtByte]
  | cons c cs ih =>
    intro post x ha
    simp only [allAscii, List.all_cons, Bool.and_eq_true] at ha
    have hsz : utf8Sz c = 1 := utf8Sz_of_ascii ha.1
    simp only [List.cons_append, List.length_cons, insertAtByte, hsz,
      List.append_eq]
    rw [if_pos (by omega)]
    have hlen : cs.length + 1 - 1 = cs.length := by omega
    rw [hlen, ih post x ha.2]
    rfl

theorem mapByte1_ascii (f : Char → Char) : ∀ (pre : Str) (c : Char)
    (post : Str), allAscii pre = true → isAsciiChar c = true →
    mapByte1 f (pre ++ c :: post) pre.length = some (pre ++ f c :: post) := by
  intro pre
  induction pre with
  | nil =>
    intro c post _ hc
    simp [mapByte1, utf8Sz_of_ascii hc]
  | cons d ds ih =>
    intro c post ha hc
    simp only [allAscii, List.all_cons, Bool.and_eq_true] at ha
    have hsz : utf8Sz d = 1 := utf8Sz_of_ascii ha.1
    simp only [List.cons_append, List.length_cons, mapByte1, hsz,
      List.append_eq]
    rw [if_neg (by omega), if_pos (by omega)]
    have hlen : ds.length + 1 - 1 = ds.length := by omega
    rw [hlen, ih c post ha.2 hc]
    rfl

/-- Definitional unfolding of one step of `convertLoop`. -/
theorem convertLoop_cons (ct : CaseType) (c : Char) (rest : List Char)
    (i : Nat) (result : Str) :
    convertLoop ct (c :: rest) i result =
      (if 'A' ≤ c ∧ c ≤ 'Z' then
        match ct with
        | .SnakeCase =>
          if i ≠ 0 then do
            let r1 ← insertAtByte result i '_'
            let r2 ← mapByte1 asciiLower r1 (i + 1)
            convertLoop ct rest (i + 1) r2
          else do
            let r1 ← mapByte1 asciiLower result i
            convertLoop ct rest (i + 1) r1
        | _ => convertLoop ct rest (i + 1) result
      else if c = '_' ∨ c = '-' then
        match ct with
        | .SnakeCase =>
          some (result.map fun d => if d = '-' then '_' else d)
        | _ =>
          if i ≠ 0 then do
            let tl ← byteTail1 result
            match findCharByte tl c with
            | none => none
            | some idx => do
              let r1 ← removeAtByte result (idx + 1)
              let r2 ← mapByte1 asciiUpper r1 (idx + 1)
              convertLoop ct rest (i + 1) r2
          else convertLoop ct rest (i + 1) result
      else convertLoop ct rest (i + 1) result) := rfl

/-- A character that is neither ASCII-uppercase nor a separator leaves
both the loop state and the result untouched in snake-case mode. -/
theorem convertLoop_snake_step_skip (c : Char) (cs : List Char) (i : Nat)
    (r : Str) (hup : ¬ ('A' ≤ c ∧ c ≤ 'Z')) (hsep : ¬ (c = '_' ∨ c = '-')) :
    convertLoop .SnakeCase (c :: cs) i r = convertLoop .SnakeCase cs (i + 1) r := by
  rw [convertLoop_cons, if_neg hup, if_neg hsep]

theorem convertLoop_snake_skip : ∀ (seg : List Char) (i : Nat) (r : Str),
    noUpper seg = true → noSeparator seg = true →
    convertLoop .SnakeCase seg i r = some r := by
  intro seg
  induction seg with
  | nil => intro i r _ _; rfl
  | cons c cs ih =>
    intro i r hu hs
    simp only [noUpper, List.all_cons, Bool.and_eq_true] at hu
    simp only [noSeparator, List.all_cons, Bool.and_eq_true] at hs
    have hup : ¬ ('A' ≤ c ∧ c ≤ 'Z') := by
      have hx := of_decide_eq_true hu.1
      simp only [isUpperAZ, decide_eq_true_eq] at hx
      exact hx
    have hsep : ¬ (c = '_' ∨ c = '-') := by
      have := hs.1
      simp only [decide_eq_true_eq, Bool.and_eq_true] at this
      tauto
    rw [convertLoop_snake_step_skip c cs i r hup hsep]
    exact ih (i + 1) r (by simpa [noUpper] using hu.2)
      (by simpa [noSeparator] using hs.2)

theorem convertLoop_nonsnake_skip : ∀ (ct : CaseType) (seg : List Char)
    (i : Nat) (r : Str), ct ≠ .SnakeCase → noSeparator seg = true →
    convertLoop ct seg i r = some r := by
  intro ct seg
  induction seg with
  | nil => intro i r _ _; rfl
  | cons c cs ih =>
    intro i r hct hs
    simp only [noSeparator, List.all_cons, Bool.and_eq_true] at hs
    have hsep : ¬ (c = '_' ∨ c = '-') := by
      have := hs.1
      simp only [decide_eq_true_eq, Bool.and_eq_true] at this
      tauto
    have hrest : noSeparator cs = true := by simpa [noSeparator] using hs.2
    rw [convertLoop_cons]
    by_cases hup : 'A' ≤ c ∧ c ≤ 'Z'
    · rw [if_pos hup]
      cases ct with
      | SnakeCase => exact absurd rfl hct
      | UpperCamelCase => exact ih (i + 1) r hct hrest
      | CamelCase => exact ih (i + 1) r hct hrest
    · rw [if_neg hup, if_neg hsep]
      cases ct with
      | SnakeCase => exact absurd rfl hct
      | UpperCamelCase => exact ih (i + 1) r hct hrest
      | CamelCase => exact ih (i + 1) r hct hrest

theorem convertLoop_snake_walk : ∀ (xs ys : List Char) (i : Nat) (r : Str),
    noUpper xs = true → noSeparator xs = true →
    convertLoop .SnakeCase (xs ++ ys) i r =
      convertLoop .SnakeCase ys (i + xs.length) r := by
  intro xs
  induction xs with
  | nil => intro ys i r _ _; simp
  | cons c cs ih =>
    intro ys i r hu hs
    simp only [noUpper, List.all_cons, Bool.and_eq_true] at hu
    simp only [noSeparator, List.all_cons, Bool.and_eq_true] at hs
    have hup : ¬ ('A' ≤ c ∧ c ≤ 'Z') := by
      have hx := of_decide_eq_true hu.1
      simp only [isUpperAZ, decide_eq_true_eq] at hx
      exact hx
    have hsep : ¬ (c = '_' ∨ c = '-') := by
      have := hs.1
      simp only [decide_eq_true_eq, Bool.and_eq_true] at this
      tauto
    rw [List.cons_append, convertLoop_snake_step_skip c (cs ++ ys) i r hup
      hsep, ih ys (i + 1) r (by simpa [noUpper] using hu.2)
      (by simpa [noSeparator] using hs.2)]
    congr 1
    simp only [List.length_cons]
    omega

theorem snake_flatMap_id : ∀ (l : List Char), noUpper l = true →
    (l.flatMap fun d => if isUpperAZ d then ['_', asciiLower d] else [d])
      = l := by
  intro l
  induction l with
  | nil => intro _; rfl
  | cons c cs ih =>
    intro hu
    simp only [noUpper, List.all_cons, Bool.and_eq_true] at hu
    have hc : isUpperAZ c = false := by
      cases h : isUpperAZ c
      · rfl
      · rw [h] at hu; simp at hu
    simp [List.flatMap_cons, hc, ih (by simpa [noUpper] using hu.2)]

theorem convertLoop_snake_upper_zero (c : Char) (rest : List Char) (r : Str)
    (hup : 'A' ≤ c ∧ c ≤ 'Z') :
    convertLoop .SnakeCase (c :: rest) 0 r =
      (mapByte1 asciiLower r 0).bind fun r1 =>
        convertLoop .SnakeCase rest 1 r1 := by
  rw [convertLoop_cons, if_pos hup]
  rfl

theorem convertLoop_snake_upper_succ (c : Char) (rest : List Char) (j : Nat)
    (r : Str) (hup : 'A' ≤ c ∧ c ≤ 'Z') :
    convertLoop .SnakeCase (c :: rest) (j + 1) r =
      (insertAtByte r (j + 1) '_').bind fun r1 =>
        (mapByte1 asciiLower r1 (j + 1 + 1)).bind fun r2 =>
          convertLoop .SnakeCase rest (j + 1 + 1) r2 := by
  rw [convertLoop_cons, if_pos hup]
  rfl

theorem convert_case_snake (s : Str) :
    convert_case s .SnakeCase = convertLoop .SnakeCase s 0 s := rfl

theorem convert_case_camel (s : Str) :
    convert_case s .CamelCase = convertLoop .CamelCase s 0 s := rfl

theorem convert_case_upper_camel (s : Str) :
    convert_case s .UpperCamelCase =
      (mapByte1 asciiUpper s 0).bind fun r =>
        convertLoop .UpperCamelCase s 0 r := rfl

theorem noSeparator_head {c : Char} {cs : List Char}
    (h : noSeparator (c :: cs) = true) : ¬ (c = '_' ∨ c = '-') := by
  simp only [noSeparator, List.all_cons, Bool.and_eq_true] at h
  have hx := h.1
  simp only [decide_eq_true_eq, Bool.and_eq_true] at hx
  tauto

theorem noSeparator_tail {c : Char} {cs : List Char}
    (h : noSeparator (c :: cs) = true) : noSeparator cs = true := by
  simp only [noSeparator, List.all_cons, Bool.and_eq_true] at h
  simpa [noSeparator] using h.2

/-- Totality of the snake-case loop on separator-free ASCII input, with
enough room in the result string. -/
theorem convertLoop_snake_total : ∀ (seg : List Char) (i : Nat) (r : Str),
    allAscii seg = true → noSeparator seg = true → allAscii r = true →
    i + seg.length ≤ r.length →
    ∃ rr, convertLoop .SnakeCase seg i r = some rr := by
  intro seg
  induction seg with
  | nil => intro i r _ _ _ _; exact ⟨r, rfl⟩
  | cons c cs ih =>
    intro i r hA hS hAr hlen
    have hAc : isAsciiChar c = true := by
      simp only [allAscii, List.all_cons, Bool.and_eq_true] at hA
      exact hA.1
    have hAcs : allAscii cs = true := by
      simp only [allAscii, List.all_cons, Bool.and_eq_true] at hA
      exact hA.2
    have hScs : noSeparator cs = true := noSeparator_tail hS
    by_cases hup : 'A' ≤ c ∧ c ≤ 'Z'
    · cases i with
      | zero =>
        rw [convertLoop_snake_upper_zero c cs r hup]
        cases r with
        | nil => simp at hlen
        | cons rc rr =>
          have hArc : isAsciiChar rc = true := by
            simp only [allAscii, List.all_cons, Bool.and_eq_true] at hAr
            exact hAr.1
          have hArr : allAscii rr = true := by
            simp only [allAscii, List.all_cons, Bool.and_eq_true] at hAr
            exact hAr.2
          have hm := mapByte1_ascii asciiLower [] rc rr rfl hArc
          simp only [List.nil_append, List.length_nil] at hm
          rw [hm, Option.some_bind]
          refine ih 1 (asciiLower rc :: rr) hAcs hScs ?_ ?_
          · simp only [allAscii, List.all_cons, Bool.and_eq_true]
            exact ⟨asciiLower_ascii hArc, hArr⟩
          · simp only [List.length_cons] at hlen ⊢
            omega
      | succ j =>
        rw [convertLoop_snake_upper_succ c cs j r hup]
        have hj : j + 1 ≤ r.length := by
          simp only [List.length_cons] at hlen
          omega
        have hprelen : (r.take (j + 1)).length = j + 1 := by
          simp [List.length_take, Nat.min_eq_left hj]
        have hATake : allAscii (r.take (j + 1)) = true := by
          simp only [allAscii, List.all_eq_true] at hAr ⊢
          intro x hx
          exact hAr x ((List.take_sublist _ _).subset hx)
        have hADrop : allAscii (r.drop (j + 1)) = true := by
          simp only [allAscii, List.all_eq_true] at hAr ⊢
          intro x hx
          exact hAr x ((List.drop_sublist _ _).subset hx)
        have hins : insertAtByte r (j + 1) '_' =
            some (r.take (j + 1) ++ '_' :: r.drop (j + 1)) := by
          have hi := insertAtByte_ascii (r.take (j + 1)) (r.drop (j + 1))
            '_' hATake
          rw [hprelen, List.take_append_drop] at hi
          exact hi
        rw [hins, Option.some_bind]
        have hdroplen : cs.length + 1 ≤ (r.drop (j + 1)).length := by
          simp only [List.length_drop, List.length_cons] at hlen ⊢
          omega
        cases hpost : r.drop (j + 1) with
        | nil => rw [hpost] at hdroplen; simp at hdroplen
        | cons d ds =>
          have hAd : isAsciiChar d = true := by
            rw [hpost] at hADrop
            simp only [allAscii, List.all_cons, Bool.and_eq_true] at hADrop
            exact hADrop.1
          have hAds : allAscii ds = true := by
            rw [hpost] at hADrop
            simp only [allAscii, List.all_cons, Bool.and_eq_true] at hADrop
            exact hADrop.2
          have hATake' : allAscii (r.take (j + 1) ++ ['_']) = true := by
            simp only [allAscii, List.all_append, Bool.and_eq_true]
            refine ⟨by simpa [allAscii] using hATake, by decide⟩
          have hmap : mapByte1 asciiLower
              (r.take (j + 1) ++ '_' :: d :: ds) (j + 1 + 1) =
              some (r.take (j + 1) ++ '_' :: asciiLower d :: ds) := by
            have hm := mapByte1_ascii asciiLower (r.take (j + 1) ++ ['_'])
              d ds hATake' hAd
            simp only [List.append_assoc, List.singleton_append,
              List.length_append, hprelen, List.length_singleton] at hm
            exact hm
          rw [hmap, Option.some_bind]
          refine ih (j + 1 + 1) _ hAcs hScs ?_ ?_
          · simp only [allAscii, List.all_append, List.all_cons,
              Bool.and_eq_true] at hATake hAds ⊢
            exact ⟨hATake, by decide, asciiLower_ascii hAd, hAds⟩
          · have hds : cs.length ≤ ds.length := by
              rw [hpost] at hdroplen
              simp only [List.length_cons] at hdroplen
              omega
            simp only [List.length_append, List.length_cons, hprelen]
            omega
    · rw [convertLoop_snake_step_skip c cs i r hup (noSeparator_head hS)]
      refine ih (i + 1) r hAcs hScs hAr ?_
      simp only [List.length_cons] at hlen
      omega

/-- Processing the tail after the head character, when exactly one
uppercase letter `u` remains, at position `p'.length + 1`. -/
theorem convertLoop_snake_one_upper_tail (hh : Char) (pp q : Str) (u : Char)
    (hAh : isAsciiChar hh = true) (hAp : allAscii pp = true)
    (hSp : noSeparator pp = true) (hUp : noUpper pp = true)
    (_hAq : allAscii q = true) (hSq : noSeparator q = true)
    (hUq : noUpper q = true) (hupu : 'A' ≤ u ∧ u ≤ 'Z') :
    convertLoop .SnakeCase (pp ++ u :: q) 1 (hh :: (pp ++ u :: q)) =
      some (hh :: (pp ++ '_' :: asciiLower u :: q)) := by
  rw [convertLoop_snake_walk pp (u :: q) 1 _ hUp hSp]
  have h1 : 1 + pp.length = pp.length + 1 := by omega
  rw [h1, convertLoop_snake_upper_succ u q pp.length _ hupu]
  have hApre : allAscii (hh :: pp) = true := by
    simp only [allAscii, List.all_cons, Bool.and_eq_true]
    exact ⟨hAh, by simpa [allAscii] using hAp⟩
  have hins : insertAtByte (hh :: (pp ++ u :: q)) (pp.length + 1) '_' =
      some ((hh :: pp) ++ '_' :: u :: q) := by
    have hi := insertAtByte_ascii (hh :: pp) (u :: q) '_' hApre
    simp only [List.length_cons, List.cons_append] at hi ⊢
    exact hi
  rw [hins, Option.some_bind]
  have hApre' : allAscii ((hh :: pp) ++ ['_']) = true := by
    simp only [allAscii, List.all_append, Bool.and_eq_true]
    exact ⟨by simpa [allAscii] using hApre, by decide⟩
  have hmap : mapByte1 asciiLower ((hh :: pp) ++ '_' :: u :: q)
      (pp.length + 1 + 1) = some ((hh :: pp) ++ '_' :: asciiLower u :: q) := by
    have hm := mapByte1_ascii asciiLower ((hh :: pp) ++ ['_']) u q hApre'
      (upperAZ_ascii hupu)
    simp only [List.append_assoc, List.singleton_append,
      List.length_append, List.length_cons, List.length_nil] at hm
    simpa using hm
  rw [hmap, Option.some_bind,
    convertLoop_snake_skip q (pp.length + 1 + 1) _ hUq hSq]
  simp

/-- **C6** counterexample.  The claim says every uppercase letter not at
position 0 is replaced by `_` plus its lowercase form, in particular for
inputs with two or more uppercase letters.  The loop inserts at the
ORIGINAL character index while earlier insertions have already shifted
`result`, so `"aBcD"` converts to `"a_b_cD"` instead of `"a_bc_d"`. -/
theorem c6_counterexample_two_uppercase :
    convert_case "aBcD".data .SnakeCase = some "a_b_cD".data
    ∧ snakeSpec "aBcD".data = "a_bc_d".data
    ∧ "a_b_cD".data ≠ "a_bc_d".data :=
  ⟨by decide, by decide, by decide⟩

/-- **C6** (corrected).  The per-letter snake-case rule — every
uppercase letter not at position 0 replaced by `_` plus its lowercase
form, an uppercase letter at position 0 simply lowercased — holds for
separator-free ASCII inputs with AT MOST ONE uppercase letter at a
position other than 0 (the first conjunct covers none, the second
exactly one).  With two or more non-initial uppercase letters the loop
inserts at stale indices and diverges from the rule (see the
counterexample). -/
theorem c6_snake_rule_at_most_one_upper :
    (∀ s : Str, allAscii s = true → noSeparator s = true →
      noUpper (s.drop 1) = true →
      convert_case s .SnakeCase = some (snakeSpec s))
    ∧ (∀ (hd : Char) (p q : Str) (u : Char),
      isAsciiChar hd = true → allAscii p = true → allAscii q = true →
      noSeparator (hd :: p) = true → noSeparator q = true →
      noUpper p = true → noUpper q = true → isUpperAZ u = true →
      convert_case (hd :: (p ++ u :: q)) .SnakeCase =
        some (snakeSpec (hd :: (p ++ u :: q)))) := by
  constructor
  · intro s hA hS hU
    cases s with
    | nil => rfl
    | cons hd rest =>
      have hAhd : isAsciiChar hd = true := by
        simp only [allAscii, List.all_cons, Bool.and_eq_true] at hA
        exact hA.1
      have hUrest : noUpper rest = true := by simpa using hU
      have hSrest : noSeparator rest = true := noSeparator_tail hS
      rw [convert_case_snake]
      by_cases hup : 'A' ≤ hd ∧ hd ≤ 'Z'
      · rw [convertLoop_snake_upper_zero hd rest _ hup]
        have hm := mapByte1_ascii asciiLower [] hd rest rfl hAhd
        simp only [List.nil_append, List.length_nil] at hm
        rw [hm, Option.some_bind,
          convertLoop_snake_skip rest 1 _ hUrest hSrest]
        have hdec : isUpperAZ hd = true := by
          simp [isUpperAZ, hup]
        simp [snakeSpec, hdec, snake_flatMap_id rest hUrest]
      · rw [convertLoop_snake_step_skip hd rest 0 _ hup (noSeparator_head hS),
          convertLoop_snake_skip rest 1 _ hUrest hSrest]
        have hdec : isUpperAZ hd = false := by
          simp [isUpperAZ, hup]
        simp [snakeSpec, hdec, snake_flatMap_id rest hUrest]
  · intro hd p q u hAhd hAp hAq hSh hSq hUp hUq hupu
    have hSp : noSeparator p = true := noSeparator_tail hSh
    have hup' : 'A' ≤ u ∧ u ≤ 'Z' := by
      simpa [isUpperAZ] using hupu
    have hspec : snakeSpec (hd :: (p ++ u :: q)) =
        (if isUpperAZ hd then asciiLower hd else hd) ::
          (p ++ '_' :: asciiLower u :: q) := by
      simp only [snakeSpec, List.flatMap_append, List.flatMap_cons,
        snake_flatMap_id p hUp, snake_flatMap_id q hUq, hupu, if_true]
      split
      · simp
      · simp
    rw [convert_case_snake, hspec]
    by_cases hup : 'A' ≤ hd ∧ hd ≤ 'Z'
    · rw [convertLoop_snake_upper_zero hd _ _ hup]
      have hm := mapByte1_ascii asciiLower [] hd (p ++ u :: q) rfl hAhd
      simp only [List.nil_append, List.length_nil] at hm
      rw [hm, Option.some_bind,
        convertLoop_snake_one_upper_tail (asciiLower hd) p q u
          (asciiLower_ascii hAhd) hAp hSp hUp hAq hSq hUq hup']
      have hdec : isUpperAZ hd = true := by simp [isUpperAZ, hup]
      rw [hdec]
      simp
    · rw [convertLoop_snake_step_skip hd _ 0 _ hup (noSeparator_head hSh),
        convertLoop_snake_one_upper_tail hd p q u hAhd hAp hSp hUp hAq hSq
          hUq hup']
      have hdec : isUpperAZ hd = false := by simp [isUpperAZ, hup]
      rw [hdec]
      simp

/-- Witness for `c6_snake_rule_at_most_one_upper` at `"HoLa"`
(`hd = 'H'`, `p = "o"`, `u = 'L'`, `q = "a"`), the repository's own
test input. -/
theorem c6_snake_witness :
    convert_case ('H' :: ("o".data ++ 'L' :: "a".data)) .SnakeCase =
      some (snakeSpec ('H' :: ("o".data ++ 'L' :: "a".data))) :=
  c6_snake_rule_at_most_one_upper.2 'H' "o".data "a".data 'L' (by decide)
    (by decide) (by decide) (by decide) (by decide) (by decide) (by decide)
    (by decide)

/-- **C7** counterexample.  The claim says `convert_case` is total,
including on the empty string, for every convention.  With
`UpperCamelCase` the source first executes
`result[0..=0].make_ascii_uppercase()`, which on the empty string is an
out-of-range slice: a panic, modelled as `none`. -/
theorem c7_counterexample_empty_upper_camel :
    convert_case "".data .UpperCamelCase = none :=
  rfl

/-- **C8** counterexample.  The claim says each configuration error
carries the text of the offending template.  When only the
name-change-annotation template is malformed, `Transformer::new`
(line 77) returns `BadFieldRenameDefinition(type_str)`: the error
carries the (well-formed) type-definition template, not the offending
annotation text `"X"`. -/
theorem c8_counterexample_rename_error_payload :
    Transformer.new { RUST_DEFINITION with nameChangeAnnot := "X".data }
        [] none =
      .error (.BadFieldRenameDefinition RUST_DEFINITION.type_definition)
    ∧ RUST_DEFINITION.type_definition ≠ "X".data :=
  ⟨rfl, by decide⟩

/-- **C7** (corrected).  `convert_case` is pure but NOT total: it
panics on the empty string with `UpperCamelCase` (see the
counterexample).  It does return a result for every convention on
separator-free ASCII input, provided the input is nonempty when the
convention is `UpperCamelCase`. -/
theorem c7_totality_on_plain_ascii :
    ∀ (s : Str) (ct : CaseType), allAscii s = true →
      noSeparator s = true → (ct = .UpperCamelCase → s ≠ []) →
      ∃ r, convert_case s ct = some r := by
  intro s ct hA hS hne
  cases ct with
  | SnakeCase =>
    obtain ⟨r, hr⟩ := convertLoop_snake_total s 0 s hA hS hA (by simp)
    exact ⟨r, by rw [convert_case_snake, hr]⟩
  | CamelCase =>
    refine ⟨s, ?_⟩
    rw [convert_case_camel]
    exact convertLoop_nonsnake_skip _ s 0 s (by simp) hS
  | UpperCamelCase =>
    cases s with
    | nil => exact absurd rfl (hne rfl)
    | cons c rest =>
      have hAc : isAsciiChar c = true := by
        simp only [allAscii, List.all_cons, Bool.and_eq_true] at hA
        exact hA.1
      have hm := mapByte1_ascii asciiUpper [] c rest rfl hAc
      simp only [List.nil_append, List.length_nil] at hm
      refine ⟨asciiUpper c :: rest, ?_⟩
      rw [convert_case_upper_camel, hm, Option.some_bind]
      exact convertLoop_nonsnake_skip _ _ 0 _ (by simp) hS

/-- Witness for `c7_totality_on_plain_ascii` at `"hola"` with
`UpperCamelCase`. -/
theorem c7_totality_witness :
    ∃ r, convert_case "hola".data .UpperCamelCase = some r :=
  c7_totality_on_plain_ascii "hola".data .UpperCamelCase (by decide)
    (by decide) (fun _ h => by cases h)

/-- **C8** (corrected).  `Transformer::new` validates the configuration
eagerly — the checks run before any tree is rendered, for every tree
alike, and a fully valid configuration yields a transformer with an
empty output — and each missing placeholder yields its distinct named
error.  Every error carries the text of the offending template EXCEPT
the name-change-annotation check, whose `BadFieldRenameDefinition`
error carries the (well-formed) type-definition template instead. -/
theorem c8_eager_validation_error_payloads :
    ∀ (cfg : TransformConfig) (tree : List JsonTree) (nm : Option Str),
    (containsStr cfg.type_definition phObjectName = false →
      Transformer.new cfg tree nm =
        .error (.BadTypeDefinition cfg.type_definition))
    ∧ (containsStr cfg.type_definition phObjectName = true →
       containsStr cfg.field_definition phFieldName = false →
      Transformer.new cfg tree nm =
        .error (.BadFieldDefinitionName cfg.field_definition))
    ∧ (containsStr cfg.type_definition phObjectName = true →
       containsStr cfg.field_definition phFieldName = true →
       containsStr cfg.nameChangeAnnot phName = false →
      Transformer.new cfg tree nm =
        .error (.BadFieldRenameDefinition cfg.type_definition))
    ∧ (containsStr cfg.type_definition phObjectName = true →
       containsStr cfg.field_definition phFieldName = true →
       containsStr cfg.nameChangeAnnot phName = true →
       containsStr cfg.field_definition phFieldType = false →
      Transformer.new cfg tree nm =
        .error (.BadFieldDefinitionType cfg.field_definition))
    ∧ (containsStr cfg.type_definition phObjectName = true →
       containsStr cfg.field_definition phFieldName = true →
       containsStr cfg.nameChangeAnnot phName = true →
       containsStr cfg.field_definition phFieldType = true →
       containsStr cfg.array_definition phFieldType = false →
      Transformer.new cfg tree nm =
        .error (.BadArrayTypeDefinition cfg.array_definition))
    ∧ (∀ ctor,
       containsStr cfg.type_definition phObjectName = true →
       containsStr cfg.field_definition phFieldName = true →
       containsStr cfg.nameChangeAnnot phName = true →
       containsStr cfg.field_definition phFieldType = true →
       containsStr cfg.array_definition phFieldType = true →
       cfg.constructor = some ctor →
       containsStr ctor.definition phObjectName = false →
      Transformer.new cfg tree nm =
        .error (.BadConstructorDefinitionName ctor.definition))
    ∧ (∀ ctor,
       containsStr cfg.type_definition phObjectName = true →
       containsStr cfg.field_definition phFieldName = true →
       containsStr cfg.nameChangeAnnot phName = true →
       containsStr cfg.field_definition phFieldType = true →
       containsStr cfg.array_definition phFieldType = true →
       cfg.constructor = some ctor →
       containsStr ctor.definition phObjectName = true →
       containsStr ctor.definition phArguments = false →
      Transformer.new cfg tree nm =
        .error (.BadConstructorDefinitionArgument ctor.definition))
    ∧ (∀ ctor,
       containsStr cfg.type_definition phObjectName = true →
       containsStr cfg.field_definition phFieldName = true →
       containsStr cfg.nameChangeAnnot phName = true →
       containsStr cfg.field_definition phFieldType = true →
       containsStr cfg.array_definition phFieldType = true →
       cfg.constructor = some ctor →
       containsStr ctor.definition phObjectName = true →
       containsStr ctor.definition phArguments = true →
       containsStr ctor.argument_definition phName = false →
      Transformer.new cfg tree nm =
        .error (.BadArgumentDefinitionName ctor.argument_definition))
    ∧ (∀ ctor f,
       containsStr cfg.type_definition phObjectName = true →
       containsStr cfg.field_definition phFieldName = true →
       containsStr cfg.nameChangeAnnot phName = true →
       containsStr cfg.field_definition phFieldType = true →
       containsStr cfg.array_definition phFieldType = true →
       cfg.constructor = some ctor →
       containsStr ctor.definition phObjectName = true →
       containsStr ctor.definition phArguments = true →
       containsStr ctor.argument_definition phName = true →
       ctor.field_definition = some f →
       containsStr f.field_definition phName = false →
      Transformer.new cfg tree nm =
        .error (.BadConstructorFieldDefinition f.field_definition))
    ∧ (containsStr cfg.type_definition phObjectName = true →
       containsStr cfg.field_definition phFieldName = true →
       containsStr cfg.nameChangeAnnot phName = true →
       containsStr cfg.field_definition phFieldType = true →
       containsStr cfg.array_definition phFieldType = true →
       cfg.constructor = none →
      Transformer.new cfg tree nm = .ok ⟨nm, cfg, tree, []⟩) := by
  intro cfg tree nm
  refine ⟨?_, ?_, ?_, ?_, ?_, ?_, ?_, ?_, ?_, ?_⟩
  · intro h1
    simp [Transformer.new, h1]
  · intro h1 h2
    simp [Transformer.new, h1, h2]
  · intro h1 h2 h3
    simp [Transformer.new, h1, h2, h3]
  · intro h1 h2 h3 h4
    simp [Transformer.new, h1, h2, h3, h4]
  · intro h1 h2 h3 h4 h5
    simp [Transformer.new, h1, h2, h3, h4, h5]
  · intro ctor h1 h2 h3 h4 h5 hc h6
    simp [Transformer.new, h1, h2, h3, h4, h5, hc, h6]
  · intro ctor h1 h2 h3 h4 h5 hc h6 h7
    simp [Transformer.new, h1, h2, h3, h4, h5, hc, h6, h7]
  · intro ctor h1 h2 h3 h4 h5 hc h6 h7 h8
    simp [Transformer.new, h1, h2, h3, h4, h5, hc, h6, h7, h8]
  · intro ctor f h1 h2 h3 h4 h5 hc h6 h7 h8 hf h9
    simp [Transformer.new, h1, h2, h3, h4, h5, hc, h6, h7, h8, hf, h9]
  · intro h1 h2 h3 h4 h5 hc
    simp [Transformer.new, h1, h2, h3, h4, h5, hc]

/-- Witness for `c8_eager_validation_error_payloads`: a Rust preset
whose annotation template is replaced by `"Y"` fails with
`BadFieldRenameDefinition` carrying the type-definition text. -/
theorem c8_validation_witness :
    Transformer.new { RUST_DEFINITION with nameChangeAnnot := "Y".data }
        [.Int "f1".data] none =
      .error (.BadFieldRenameDefinition
        ({ RUST_DEFINITION with
            nameChangeAnnot := "Y".data } : TransformConfig).type_definition)
    :=
  (c8_eager_validation_error_payloads
    { RUST_DEFINITION with nameChangeAnnot := "Y".data }
    [.Int "f1".data] none).2.2.1 (by decide) (by decide) (by decide)

/-- **C9** (confirmed).  When the parse-array loop consumes an
`ArrayEnd` token with no element yet unified it fails with
`EmptyArrayNotSupportedError` carrying exactly that closing token's
line and column; with a unified element shape it returns an Array node
carrying the field name and that shape.  Instantiated on the token
streams of `\x7b "f2": [] \x7d` (fails) and `\x7b"f1": [5]\x7d`
(succeeds). -/
theorem c9_array_end_semantics :
    (∀ fuel name l c rest,
      parseArrayLoop (fuel + 1) name none (⟨l, c, .ArrayEnd⟩ :: rest) =
        .error (.EmptyArrayNotSupportedError l c))
    ∧ (∀ fuel name t l c rest,
      parseArrayLoop (fuel + 1) name (some t) (⟨l, c, .ArrayEnd⟩ :: rest) =
        .ok (.JsonArray name t, rest))
    ∧ start_tokenizer [⟨0, 0, .ObjectStart⟩, ⟨0, 2, .Name "f2".data⟩,
        ⟨0, 6, .Colon⟩, ⟨0, 8, .ArrayStart⟩, ⟨0, 9, .ArrayEnd⟩,
        ⟨0, 11, .ObjectEnd⟩] =
      .error (.EmptyArrayNotSupportedError 0 9)
    ∧ start_tokenizer [⟨0, 0, .ObjectStart⟩, ⟨0, 2, .Name "f1".data⟩,
        ⟨0, 6, .Colon⟩, ⟨0, 8, .ArrayStart⟩, ⟨0, 9, .Value .Int⟩,
        ⟨0, 12, .ArrayEnd⟩, ⟨0, 14, .ObjectEnd⟩] =
      .ok [.JsonArray "f1".data .Int] := by
  refine ⟨fun fuel name l c rest => rfl, fun fuel name t l c rest => rfl,
    rfl, rfl⟩

/-- **C10** (confirmed).  If the token stream is exhausted before an
`ObjectEnd` closes the current object, the parse-object loop returns
the children accumulated so far as a SUCCESS, whatever pending field
name is held; instantiated on the tokens of the unterminated document
`\x7b"f1": 12, "f2":` where the pending name `f2` is silently
dropped. -/
theorem c10_unterminated_object_succeeds :
    (∀ fuel object name actualCount,
      parseObjectLoop fuel object name actualCount [] = .ok (object, []))
    ∧ start_tokenizer [⟨0, 0, .ObjectStart⟩, ⟨0, 1, .Name "f1".data⟩,
        ⟨0, 5, .Colon⟩, ⟨0, 7, .Value .Int⟩, ⟨0, 9, .Comma⟩,
        ⟨0, 11, .Name "f2".data⟩, ⟨0, 15, .Colon⟩] =
      .ok [.Int "f1".data] := by
  refine ⟨fun fuel object name actualCount => ?_, rfl⟩
  cases fuel <;> rfl

end JsonParser
